import Mathlib

/-!
A verification development for the quizgo scoring core.

The scoring engine is a set of pure functions over in-memory values:
a text normalizer (`normalizeText`), a Levenshtein edit-distance matcher
(`levenshteinDistance`, `isFreeTextCorrect`), a per-round scorer
(`computeRoundScores`), a quiz-level aggregator (`computeQuizScores`) and
an OCR answer-sheet parser (`parseDocumentAiAnswers`).

Modelling conventions for the JavaScript host language:
* Finite IEEE-754 doubles are modelled as exact rationals (`ℚ`).  All
  arithmetic the scorer performs on them (equality, subtraction, absolute
  value, `Math.min`, comparisons) is therefore exact; double rounding is
  not modelled.  Non-finite numbers (`NaN`, `±Infinity`) are modelled by a
  dedicated constructor, since the code only ever observes them through
  `Number.isFinite`.
* JS strings are modelled as Lean `String`s (sequences of code points);
  `charCodeAt`-based comparison coincides with `Char` equality for
  characters of the Basic Multilingual Plane.
* `undefined` and `null` are collapsed into one constructor `jnull`;
  the code under study only observes them through `?? ''`, `typeof`,
  and `Number(...)` on answer values typed `string | number | undefined`,
  where the two behave identically.
-/

namespace Quizgo

/-- The JavaScript whitespace class (the character set matched by `\s`
and trimmed by `String.prototype.trim`): space, tab, LF, VT, FF, CR,
NBSP, Ogham space, the U+2000–U+200A spaces, LS, PS, NNBSP, MMSP,
ideographic space and BOM. -/
def isJsWhitespace (c : Char) : Bool :=
  decide (c.toNat = 0x20 ∨ c.toNat = 0x09 ∨ c.toNat = 0x0A ∨ c.toNat = 0x0B ∨
    c.toNat = 0x0C ∨ c.toNat = 0x0D ∨ c.toNat = 0xA0 ∨ c.toNat = 0x1680 ∨
    (0x2000 ≤ c.toNat ∧ c.toNat ≤ 0x200A) ∨ c.toNat = 0x2028 ∨ c.toNat = 0x2029 ∨
    c.toNat = 0x202F ∨ c.toNat = 0x205F ∨ c.toNat = 0x3000 ∨ c.toNat = 0xFEFF)

/-- `String.prototype.toLowerCase`, modelled per character on the ASCII
range (the host lowercases other scripts per Unicode; no stated property
depends on the exact table beyond ASCII). -/
def jsToLowerChar (c : Char) : Char :=
  if 65 ≤ c.toNat ∧ c.toNat ≤ 90 then Char.ofNat (c.toNat + 32) else c

/-- `String.prototype.trim`: drop leading and trailing whitespace. -/
def jsTrimList (l : List Char) : List Char :=
  ((l.dropWhile isJsWhitespace).reverse.dropWhile isJsWhitespace).reverse

/-- Worker for `replace(/\s+/g, ' ')`: the flag records whether the scan
is inside a whitespace run (whose single replacement space has already
been emitted). -/
def collapseWsAux : Bool → List Char → List Char
  | _, [] => []
  | inRun, c :: cs =>
    if isJsWhitespace c then
      if inRun then collapseWsAux true cs else ' ' :: collapseWsAux true cs
    else c :: collapseWsAux false cs

/-- `replace(/\s+/g, ' ')`: every maximal run of whitespace characters
becomes a single space. -/
def collapseWs (l : List Char) : List Char :=
  collapseWsAux false l

/-- Model of the JavaScript values that flow through answer fields
(`string | number | undefined` at the use sites).  `jnum` carries a finite
double as an exact rational, `jnan` is any non-finite number. -/
inductive JVal where
  | jstr (s : String)
  | jnum (q : ℚ)
  | jnan
  | jnull
deriving DecidableEq

/-- Decimal digits of the fractional part `r / d` (`0 ≤ r < d`), up to
`fuel` digits.  Used only to give number-to-string conversion a total,
executable model; the theorems below only ever evaluate it on integers. -/
def fracDigits : ℕ → ℕ → ℕ → List Char
  | 0, _, _ => []
  | _, 0, _ => []
  | fuel + 1, r, d =>
    let r10 := r * 10
    Char.ofNat (48 + r10 / d) :: fracDigits fuel (r10 % d) d

/-- Model of JS number-to-string conversion, exact on integers and on
terminating decimal expansions of up to 30 digits (the host's
shortest-round-trip printing is not modelled beyond that). -/
def ratToString (q : ℚ) : String :=
  let sign := if q.num < 0 then "-" else ""
  let n := q.num.natAbs
  let ip := n / q.den
  let fr := n % q.den
  if q.den = 1 then sign ++ toString ip
  else sign ++ toString ip ++ "." ++ ⟨fracDigits 30 fr q.den⟩

/-- `String(v)` on the modelled value universe. -/
def jsToString : JVal → String
  | .jstr s => s
  | .jnum q => ratToString q
  | .jnan => "NaN"
  | .jnull => "undefined"

/-- `v ?? ''` (nullish coalescing with the empty string). -/
def nullishToEmpty : JVal → JVal
  | .jnull => .jstr ""
  | v => v

/-- `normalizeText` (source: `String(value ?? '').trim().toLowerCase()
.replace(/\s+/g, ' ')`). -/
def normalizeText (value : JVal) : String :=
  ⟨collapseWs (((jsTrimList (jsToString (nullishToEmpty value)).toList).map jsToLowerChar))⟩

/-- Numeric value of a digit list, most significant first. -/
def digitsToNat (l : List Char) : ℕ :=
  l.foldl (fun a c => a * 10 + (c.toNat - 48)) 0

/-- `Number(s)` on an unsigned decimal literal: digits, optionally with a
decimal point (`"5"`, `"5."`, `".5"`, `"5.25"`), `none` for anything else
(= `NaN`).  Hexadecimal, exponent and `Infinity` forms of the host parser
are outside the modelled fragment. -/
def parseUnsigned (l : List Char) : Option ℚ :=
  let ds := l.takeWhile Char.isDigit
  let rest := l.dropWhile Char.isDigit
  match rest with
  | [] => if ds.isEmpty then none else some (digitsToNat ds)
  | '.' :: rest2 =>
    let fs := rest2.takeWhile Char.isDigit
    let rest3 := rest2.dropWhile Char.isDigit
    if rest3.isEmpty = false then none
    else if ds.isEmpty && fs.isEmpty then none
    else some ((digitsToNat ds : ℚ) + (digitsToNat fs : ℚ) / (10 ^ fs.length))
  | _ => none

/-- `Number(s)` for a string `s`: trimmed empty string is `0`, otherwise an
optionally signed decimal literal; `none` models `NaN`. -/
def strToNum (s : String) : Option ℚ :=
  match jsTrimList s.toList with
  | [] => some 0
  | '-' :: rest => (parseUnsigned rest).map (fun q => -q)
  | '+' :: rest => parseUnsigned rest
  | l => parseUnsigned l

/-- `Number(v)` restricted to finite results: `none` models a non-finite
outcome (`NaN` from `undefined`, non-numeric strings, or a stored
non-finite number). -/
def jvalToNum : JVal → Option ℚ
  | .jstr s => strToNum s
  | .jnum q => some q
  | .jnan => none
  | .jnull => none

/-- The stored `correctAnswer` of a question
(`string | number | { bg, en } | undefined`).  In `ca_pair`, `none` models
a field that is absent or not a string. -/
inductive CorrectAnswer where
  | ca_str (s : String)
  | ca_num (q : ℚ)
  | ca_nan
  | ca_pair (bg en : Option String)
  | ca_absent
deriving DecidableEq

/-- `Number(q.correctAnswer)` restricted to finite results; a plain record
and `undefined` both convert to `NaN`, hence `none`. -/
def caToNum : CorrectAnswer → Option ℚ
  | .ca_str s => strToNum s
  | .ca_num q => some q
  | _ => none

/-- The `bg` candidate of a free-text correct answer (source line 247):
a string-valued `bg` field, else a bare string correct answer, else `''`. -/
def ftBg : CorrectAnswer → String
  | .ca_pair (some bg) _ => bg
  | .ca_str s => s
  | _ => ""

/-- The `en` candidate of a free-text correct answer (source line 248). -/
def ftEn : CorrectAnswer → String
  | .ca_pair _ (some en) => en
  | .ca_str s => s
  | _ => ""

/-- Substitution cost of the DP (`ca === b.charCodeAt(j-1) ? 0 : 1`). -/
def levCost (x y : Char) : ℕ := if x = y then 0 else 1

/-- Inner loop of the Levenshtein DP: given the running cell to the left,
the diagonal cell, the remaining characters of `b` and the remaining cells
of the previous row, produce the remaining cells of the current row. -/
def levRowAux (ca : Char) : ℕ → ℕ → List Char → List ℕ → List ℕ
  | left, diag, y :: bs, above :: rest =>
    let cell := min (above + 1) (min (left + 1) (diag + levCost ca y))
    cell :: levRowAux ca cell above bs rest
  | _, _, _, _ => []

/-- One iteration of the outer loop: next DP row from the previous row,
where `i` is the row index (`curr[0] = i`). -/
def levRowNext (ca : Char) (i : ℕ) (b : List Char) (prev : List ℕ) : List ℕ :=
  match prev with
  | diag :: rest => i :: levRowAux ca i diag b rest
  | [] => [i]

/-- The outer loop over the characters of `a`, threading the row. -/
def levLoop (b : List Char) : List Char → ℕ → List ℕ → List ℕ
  | [], _, prev => prev
  | x :: xs, i, prev => levLoop b xs (i + 1) (levRowNext x i b prev)

/-- `levenshteinDistance` translated from the source: early exits for
equal and empty inputs, then the two-row DP, reading `prev[blen]`. -/
def levenshteinDistance (a b : String) : ℕ :=
  if a = b then 0
  else
    let al := a.toList
    let bl := b.toList
    if al.length = 0 then bl.length
    else if bl.length = 0 then al.length
    else (levLoop bl al 1 (List.range (bl.length + 1))).getD bl.length 0

/-- The candidate list of `isFreeTextCorrect`
(`[normalizeText(bg), normalizeText(en)].filter(Boolean)`). -/
def ftCandidates (correct : CorrectAnswer) : List String :=
  ([normalizeText (.jstr (ftBg correct)), normalizeText (.jstr (ftEn correct))]).filter
    (fun s => s ≠ "")

/-- The threshold test `dist / denom <= 0.15` for one candidate, with the
`denom === 0` guard.  The comparison is modelled exactly over `ℚ` with
threshold `3/20`: for `denom` below `2^52` the double computation
`dist / denom <= 0.15` decides the same predicate, because the rounding
error of the quotient is far smaller than the gap `1/(20·denom)` between
distinct attainable ratios. -/
def ftRatioOk (answer c : String) : Bool :=
  let denom := max answer.length c.length
  if denom = 0 then false
  else decide ((levenshteinDistance answer c : ℚ) / (denom : ℚ) ≤ 3 / 20)

/-- `isFreeTextCorrect` translated from the source. -/
def isFreeTextCorrect (answerRaw : JVal) (correct : CorrectAnswer) : Bool :=
  let answer := normalizeText answerRaw
  if answer = "" then false
  else
    let candidates := ftCandidates correct
    if candidates.isEmpty then false
    else candidates.any (fun c => ftRatioOk answer c)

/-- The three rulesets (`'multiple-choice' | 'number' | 'free-text'`). -/
inductive Ruleset where
  | multipleChoice
  | number
  | freeText
deriving DecidableEq

/-- One question of a round. -/
structure Question where
  number : Int
  text : String
  options : List String
  correctAnswer : CorrectAnswer
deriving DecidableEq

/-- One round of a quiz.  The optional point parameters collapse
`undefined` and stored non-finite values into `none`, exactly the cases
the getter functions below replace by defaults. -/
structure QuizRound where
  roundNumber : Int
  ruleset : Ruleset
  pointsPerCorrectAnswer : Option ℚ
  pointsExactMatch : Option ℚ
  pointsClosestWithoutExactMatch : Option ℚ
  questions : List Question
deriving DecidableEq

/-- A quiz: rounds plus the team roster. -/
structure Quiz where
  id : String
  title : Option String
  rounds : List QuizRound
  teams : List String
deriving DecidableEq

/-- One `{ number, answer }` entry of a submission. -/
structure AnswerEntry where
  number : Int
  answer : JVal
deriving DecidableEq

/-- One team's submission for one round. -/
structure SubmissionItem where
  quizId : String
  teamName : String
  roundNumber : Int
  answers : List AnswerEntry
deriving DecidableEq

/-- The scoring scope: `'all'` or a single round number. -/
inductive RoundScope where
  | all
  | round (n : Int)
deriving DecidableEq

/-- One `{ teamName, points }` leaderboard entry. -/
structure ScoreEntry where
  teamName : String
  points : ℚ
deriving DecidableEq

/-- `getRoundPointsPerCorrect`: the stored value when it is a finite
number, else the default `1`. -/
def getRoundPointsPerCorrect (r : QuizRound) : ℚ :=
  r.pointsPerCorrectAnswer.getD 1

/-- `getNumberPointsExact`: default `3`. -/
def getNumberPointsExact (r : QuizRound) : ℚ :=
  r.pointsExactMatch.getD 3

/-- `getNumberPointsClosest`: default `1`. -/
def getNumberPointsClosest (r : QuizRound) : ℚ :=
  r.pointsClosestWithoutExactMatch.getD 1

/-- `s.answers.find((a) => a.number === qNumber)?.answer`, with `jnull`
for a missing entry. -/
def findAnswerVal (s : SubmissionItem) (qn : Int) : JVal :=
  match s.answers.find? (fun a => a.number == qn) with
  | some e => e.answer
  | none => .jnull

/-- `Number(entry?.answer)` restricted to finite results. -/
def parsedNum (s : SubmissionItem) (qn : Int) : Option ℚ :=
  jvalToNum (findAnswerVal s qn)

/-- `Math.min` folded from a `Number.POSITIVE_INFINITY` seed: `none` is
the infinite seed, `some m` a finite running minimum. -/
def minOptQ (m : Option ℚ) (x : ℚ) : Option ℚ :=
  match m with
  | none => some x
  | some v => some (min v x)

/-- The `exactTeams` list of a number question: submissions whose answer
parses to exactly the correct value (kept as submissions; the source
stores their team names). -/
def questionExact (qn : Int) (c : ℚ) (subs : List SubmissionItem) : List SubmissionItem :=
  subs.filter (fun s => parsedNum s qn == some c)

/-- The `diffs` list of a number question: per finite-parsing non-exact
submission, the team name with its absolute difference from the correct
value. -/
def questionDiffs (qn : Int) (c : ℚ) (subs : List SubmissionItem) : List (String × ℚ) :=
  subs.filterMap (fun s =>
    match parsedNum s qn with
    | some n => if n = c then none else some (s.teamName, |n - c|)
    | none => none)

/-- Scoring of one number-ruleset question with finite correct value `c`
(source lines 291–322), as the per-team points this question contributes.
A team's award is counted per matching submission, matching the source's
per-submission accumulation. -/
def numberQuestionScore (r : QuizRound) (qn : Int) (c : ℚ) (subs : List SubmissionItem) :
    String → ℚ :=
  let exact := questionExact qn c subs
  let diffs := questionDiffs qn c subs
  if exact.length > 0 then
    fun t => (exact.filter (fun s => s.teamName == t)).length * getNumberPointsExact r
  else if diffs.length = 0 then fun _ => 0
  else
    let minDiff := diffs.foldl (fun m d => minOptQ m d.2) none
    fun t =>
      (diffs.filter (fun d => d.1 == t && some d.2 == minDiff)).length *
        getNumberPointsClosest r

/-- `typeof ans === 'string' && ans === correct`. -/
def ansIsStrEq : JVal → String → Bool
  | .jstr s, c => s == c
  | _, _ => false

/-- The multiple-choice correct label: the stored `correctAnswer` when it
is a string, else `''` (source line 330). -/
def mcCorrectLabel : CorrectAnswer → String
  | .ca_str s => s
  | _ => ""

/-- Scoring of one multiple-choice question (source lines 329–335). -/
def mcQuestionScore (r : QuizRound) (q : Question) (subs : List SubmissionItem) :
    String → ℚ :=
  let correct := mcCorrectLabel q.correctAnswer
  fun t =>
    (subs.filter (fun s => s.teamName == t && ansIsStrEq (findAnswerVal s q.number) correct)).length *
      getRoundPointsPerCorrect r

/-- Scoring of one free-text question (source lines 337–341). -/
def ftQuestionScore (r : QuizRound) (q : Question) (subs : List SubmissionItem) :
    String → ℚ :=
  fun t =>
    (subs.filter (fun s =>
      s.teamName == t && isFreeTextCorrect (findAnswerVal s q.number) q.correctAnswer)).length *
      getRoundPointsPerCorrect r

/-- The loop body of `computeRoundScores` for one question: the points it
adds per team.  A number question whose correct answer is not finite is
skipped (`continue`). -/
def questionScore (r : QuizRound) (q : Question) (subs : List SubmissionItem) :
    String → ℚ :=
  match r.ruleset with
  | .number =>
    match caToNum q.correctAnswer with
    | none => fun _ => 0
    | some c => numberQuestionScore r q.number c subs
  | .multipleChoice => mcQuestionScore r q subs
  | .freeText => ftQuestionScore r q subs

/-- `computeRoundScores` as the per-team total over the round's questions.
The source accumulates a mutable `Map` whose entries only ever receive
additive increments, one batch per question; the map read back as a total
function (absent team ↦ 0) is exactly this sum. -/
def computeRoundScores (r : QuizRound) (subs : List SubmissionItem) : String → ℚ :=
  fun t => (r.questions.map (fun q => questionScore r q subs t)).sum

/-- `Array.from(new Set(...))`: deduplicate keeping first occurrences. -/
def dedupFirstAux (seen : List String) : List String → List String
  | [] => []
  | a :: l => if a ∈ seen then dedupFirstAux seen l else a :: dedupFirstAux (a :: seen) l

/-- Deduplication keeping the first occurrence of each element, in order. -/
def dedupFirst (l : List String) : List String := dedupFirstAux [] l

/-- Insert `x` after every element strictly before it (`lt y x`), before
the first element that is not. -/
def insertBefore {α : Type} (lt : α → α → Bool) (x : α) : List α → List α
  | [] => [x]
  | y :: ys => if lt y x then y :: insertBefore lt x ys else x :: y :: ys

/-- Stable sort by the strict order `lt` (insertion sort): models
`Array.prototype.sort` with a consistent comparator, which is stable. -/
def stableSortBy {α : Type} (lt : α → α → Bool) : List α → List α
  | [] => []
  | x :: xs => insertBefore lt x (stableSortBy lt xs)

/-- The comparator `(a, b) => b.points - a.points ||
a.teamName.localeCompare(b.teamName)` as a strict "comes before"
predicate: higher points first, then names ascending.
`localeCompare` is modelled as ordinal (code-point) string comparison;
the host's locale collation may order names differently, so only
properties that do not depend on the name order are claimed below. -/
def scoreEntryBefore (y x : ScoreEntry) : Bool :=
  decide (x.points < y.points ∨ (y.points = x.points ∧ y.teamName < x.teamName))

/-- The rounds selected by a scope (source lines 359–362). -/
def roundsToScore (quiz : Quiz) (scope : RoundScope) : List QuizRound :=
  match scope with
  | .all => quiz.rounds
  | .round n => quiz.rounds.filter (fun r => r.roundNumber == n)

/-- `computeQuizScores`: team universe (roster ∪ submission teams, first
occurrences kept), per-round totals over the selected rounds, then the
sorted leaderboard. -/
def computeQuizScores (quiz : Quiz) (scope : RoundScope) (subs : List SubmissionItem) :
    List ScoreEntry :=
  let teamNames := dedupFirst (quiz.teams ++ subs.map (fun s => s.teamName))
  let total : String → ℚ := fun t =>
    ((roundsToScore quiz scope).map (fun r =>
      computeRoundScores r (subs.filter (fun s => s.roundNumber == r.roundNumber)) t)).sum
  stableSortBy scoreEntryBefore (teamNames.map (fun t => ⟨t, total t⟩))

/-- An element of the OCR `document.entities` array: a record with
optional `type` and `mentionText` fields (`none` models an absent or
non-string field), or a non-record element. -/
inductive OcrEntity where
  | obj (type : Option String) (mentionText : Option String)
  | nonRecord
deriving DecidableEq

/-- One parsed `{ number, text }` answer. -/
structure ParsedAnswer where
  number : ℕ
  text : String
deriving DecidableEq

/-- `Number.isFinite(Number(digits))` for a digit string of value `n`:
the nearest double is finite exactly when `n < 2^1024 - 2^970`. -/
def jsFiniteNat (n : ℕ) : Bool := n < 2 ^ 1024 - 2 ^ 970

/-- Parsing of a single OCR entity (source lines 419–433): entities whose
`type` is not the tag `"answer"` or whose `mentionText` is not a string
are discarded; the trimmed text must be one or more digits, a literal
period, then anything; the digits give the number and the trimmed
remainder the text.  The regex `^(\d+)\.(\s*[\s\S]*)$` never benefits
from backtracking, so the maximal digit run is the match. -/
def parseEntity : OcrEntity → Option ParsedAnswer
  | .nonRecord => none
  | .obj t mt =>
    if t ≠ some "answer" then none
    else
      match mt with
      | none => none
      | some text =>
        let raw := jsTrimList text.toList
        let ds := raw.takeWhile Char.isDigit
        match ds, raw.dropWhile Char.isDigit with
        | [], _ => none
        | _ :: _, '.' :: rest2 =>
          let n := digitsToNat ds
          if jsFiniteNat n then some ⟨n, ⟨jsTrimList rest2⟩⟩ else none
        | _ :: _, _ => none

/-- `parseDocumentAiAnswers` on the extracted entity list (the source
first digs `documentAiJson.document.entities`, defaulting to `[]`; the
wrapper is elided and the function modelled on the entity list): parse
each entity, drop failures, stable-sort ascending by number
(`parsed.sort((a, b) => a.number - b.number)`). -/
def parseDocumentAiAnswers (entities : List OcrEntity) : List ParsedAnswer :=
  stableSortBy (fun a b => a.number < b.number) (entities.filterMap parseEntity)

/-! ### Helper lemmas: counting by a duplicate-free key -/

lemma notmem_length_filter_key {α κ : Type} [DecidableEq κ]
    (key : α → κ) (p : α → Bool) (t : κ) :
    ∀ l : List α, t ∉ l.map key →
      (l.filter (fun y => key y == t && p y)).length = 0 := by
  intro l
  induction l with
  | nil => simp
  | cons a l ih =>
    intro h
    simp only [List.map_cons, List.mem_cons, not_or] at h
    have hk : (key a == t) = false := by
      simp only [beq_eq_false_iff_ne, ne_eq]
      exact fun he => h.1 he.symm
    rw [List.filter_cons]
    have hc : (key a == t && p a) = false := by simp [hk]
    simp only [hc, Bool.false_eq_true, if_false]
    exact ih h.2

lemma length_filter_key_of_mem {α κ : Type} [DecidableEq κ]
    (key : α → κ) (p : α → Bool) :
    ∀ l : List α, (l.map key).Nodup → ∀ x ∈ l,
      (l.filter (fun y => key y == key x && p y)).length = if p x then 1 else 0 := by
  intro l
  induction l with
  | nil => intro _ x hx; simp at hx
  | cons a l ih =>
    intro hnd x hx
    simp only [List.map_cons, List.nodup_cons] at hnd
    rcases List.mem_cons.mp hx with rfl | hx'
    · have h0 : (l.filter (fun y => key y == key x && p y)).length = 0 :=
        notmem_length_filter_key key p (key x) l hnd.1
      rw [List.filter_cons]
      by_cases hp : p x
      · simp [hp, h0]
      · simp [hp, h0]
    · have hka : (key a == key x) = false := by
        simp only [beq_eq_false_iff_ne, ne_eq]
        intro he
        exact hnd.1 (he ▸ List.mem_map_of_mem key hx')
      rw [List.filter_cons]
      have hc : (key a == key x && p a) = false := by simp [hka]
      simp only [hc, Bool.false_eq_true, if_false]
      exact ih hnd.2 x hx'

lemma notmem_length_filter_fst_filterMap {α κ β : Type} [DecidableEq κ] [DecidableEq β]
    (key : α → κ) (g : α → Option β) (p : β → Bool) (t : κ) :
    ∀ l : List α, t ∉ l.map key →
      ((l.filterMap (fun y => (g y).map (fun v => (key y, v)))).filter
        (fun d => d.1 == t && p d.2)).length = 0 := by
  intro l
  induction l with
  | nil => simp
  | cons a l ih =>
    intro h
    simp only [List.map_cons, List.mem_cons, not_or] at h
    rw [List.filterMap_cons]
    cases hg : g a with
    | none => simpa using ih h.2
    | some b =>
      simp only [Option.map_some']
      rw [List.filter_cons]
      have hk : (key a == t) = false := by
        simp only [beq_eq_false_iff_ne, ne_eq]
        exact fun he => h.1 he.symm
      have hc : (key a == t && p (a, b).2) = false := by simp [hk]
      simp only [hc, Bool.false_eq_true, if_false]
      exact ih h.2

lemma length_filter_fst_filterMap {α κ β : Type} [DecidableEq κ] [DecidableEq β]
    (key : α → κ) (g : α → Option β) (p : β → Bool) :
    ∀ l : List α, (l.map key).Nodup → ∀ x ∈ l,
      ((l.filterMap (fun y => (g y).map (fun v => (key y, v)))).filter
        (fun d => d.1 == key x && p d.2)).length
        = (g x).elim 0 (fun b => if p b then 1 else 0) := by
  intro l
  induction l with
  | nil => intro _ x hx; simp at hx
  | cons a l ih =>
    intro hnd x hx
    simp only [List.map_cons, List.nodup_cons] at hnd
    rcases List.mem_cons.mp hx with rfl | hx'
    · have h0 := notmem_length_filter_fst_filterMap key g p (key x) l hnd.1
      rw [List.filterMap_cons]
      cases hg : g x with
      | none => simpa using h0
      | some b =>
        simp only [Option.map_some']
        rw [List.filter_cons]
        by_cases hp : p b
        · simp [hp, h0]
        · simp [hp, h0]
    · have hka : (key a == key x) = false := by
        simp only [beq_eq_false_iff_ne, ne_eq]
        intro he
        exact hnd.1 (he ▸ List.mem_map_of_mem key hx')
      rw [List.filterMap_cons]
      cases hg : g a with
      | none => exact ih hnd.2 x hx'
      | some b =>
        simp only [Option.map_some']
        rw [List.filter_cons]
        have hc : (key a == key x && p (a, b).2) = false := by simp [hka]
        simp only [hc, Bool.false_eq_true, if_false]
        exact ih hnd.2 x hx'

/-! ### Helper lemmas: the `Math.min` fold with infinite seed -/

lemma foldl_minOptQ_le_init :
    ∀ (l : List (String × ℚ)) (w v : ℚ),
      l.foldl (fun m d => minOptQ m d.2) (some w) = some v → v ≤ w := by
  intro l
  induction l with
  | nil =>
    intro w v h
    simp only [List.foldl_nil, Option.some.injEq] at h
    exact h ▸ le_refl w
  | cons e l ih =>
    intro w v h
    rw [List.foldl_cons] at h
    have := ih (min w e.2) v h
    exact le_trans this (min_le_left _ _)

lemma foldl_minOptQ_le_mem :
    ∀ (l : List (String × ℚ)) (init : Option ℚ) (d : String × ℚ), d ∈ l →
      ∀ v : ℚ, l.foldl (fun m d => minOptQ m d.2) init = some v → v ≤ d.2 := by
  intro l
  induction l with
  | nil => intro _ d hd; simp at hd
  | cons e l ih =>
    intro init d hd v h
    rw [List.foldl_cons] at h
    rcases List.mem_cons.mp hd with rfl | hd'
    · have hu : ∃ u, minOptQ init d.2 = some u ∧ u ≤ d.2 := by
        cases init with
        | none => exact ⟨d.2, rfl, le_refl _⟩
        | some w => exact ⟨min w d.2, rfl, min_le_right _ _⟩
      obtain ⟨u, hu1, hu2⟩ := hu
      rw [hu1] at h
      exact le_trans (foldl_minOptQ_le_init l u v h) hu2
    · exact ih (minOptQ init e.2) d hd' v h

lemma foldl_minOptQ_cases :
    ∀ (l : List (String × ℚ)) (init : Option ℚ),
      l.foldl (fun m d => minOptQ m d.2) init = init ∨
        ∃ d ∈ l, l.foldl (fun m d => minOptQ m d.2) init = some d.2 := by
  intro l
  induction l with
  | nil => intro init; left; rfl
  | cons e l ih =>
    intro init
    rw [List.foldl_cons]
    rcases ih (minOptQ init e.2) with h | ⟨d, hd, h⟩
    · cases init with
      | none =>
        right
        exact ⟨e, List.mem_cons_self e l, h⟩
      | some w =>
        rcases min_choice w e.2 with hm | hm
        · left
          simpa [minOptQ, hm] using h
        · right
          refine ⟨e, List.mem_cons_self e l, ?_⟩
          simpa [minOptQ, hm] using h
    · right
      exact ⟨d, List.mem_cons_of_mem e hd, h⟩

lemma foldl_minOptQ_ne_none :
    ∀ (l : List (String × ℚ)), l ≠ [] →
      l.foldl (fun m d => minOptQ m d.2) none ≠ none := by
  have hsome : ∀ (l : List (String × ℚ)) (w : ℚ),
      ∃ v, l.foldl (fun m d => minOptQ m d.2) (some w) = some v := by
    intro l
    induction l with
    | nil => intro w; exact ⟨w, rfl⟩
    | cons e l ih =>
      intro w
      rw [List.foldl_cons]
      exact ih (min w e.2)
  intro l hl
  cases l with
  | nil => exact absurd rfl hl
  | cons e l =>
    rw [List.foldl_cons]
    obtain ⟨v, hv⟩ := hsome l e.2
    rw [show minOptQ none e.2 = some e.2 from rfl, hv]
    simp

lemma foldl_minOptQ_eq_iff (l : List (String × ℚ)) (d : String × ℚ) (hd : d ∈ l) :
    l.foldl (fun m e => minOptQ m e.2) none = some d.2 ↔ ∀ e ∈ l, d.2 ≤ e.2 := by
  constructor
  · intro h e he
    exact foldl_minOptQ_le_mem l none e he d.2 h
  · intro hmin
    rcases foldl_minOptQ_cases l none with h | ⟨e, he, h⟩
    · exact absurd h (foldl_minOptQ_ne_none l (List.ne_nil_of_mem hd))
    · have h1 : d.2 ≤ e.2 := hmin e he
      have h2 : e.2 ≤ d.2 := foldl_minOptQ_le_mem l none d hd e.2 h
      rw [h, le_antisymm h2 h1]

/-- The per-submission value recorded in `questionDiffs`. -/
def diffVal (qn : Int) (c : ℚ) (s : SubmissionItem) : Option ℚ :=
  match parsedNum s qn with
  | some n => if n = c then none else some |n - c|
  | none => none

lemma questionDiffs_eq_filterMap (qn : Int) (c : ℚ) (subs : List SubmissionItem) :
    questionDiffs qn c subs =
      subs.filterMap (fun y => (diffVal qn c y).map (fun v => (y.teamName, v))) := by
  unfold questionDiffs
  congr 1
  funext s
  unfold diffVal
  cases parsedNum s qn with
  | none => rfl
  | some n =>
    by_cases h : n = c
    · simp [h]
    · simp [h]

lemma mem_questionDiffs (qn : Int) (c : ℚ) (subs : List SubmissionItem) (e : String × ℚ) :
    e ∈ questionDiffs qn c subs ↔
      ∃ s ∈ subs, ∃ n : ℚ, parsedNum s qn = some n ∧ n ≠ c ∧ e = (s.teamName, |n - c|) := by
  unfold questionDiffs
  rw [List.mem_filterMap]
  constructor
  · rintro ⟨s, hs, hf⟩
    cases hp : parsedNum s qn with
    | none => simp [hp] at hf
    | some n =>
      rw [hp] at hf
      by_cases h : n = c
      · simp [h] at hf
      · simp only [h, if_neg, ite_false, Option.some.injEq] at hf
        exact ⟨s, hs, n, hp, h, hf.symm⟩
  · rintro ⟨s, hs, n, hp, hne, rfl⟩
    exact ⟨s, hs, by simp [hp, hne]⟩

lemma questionScore_number_eq (r : QuizRound) (q : Question) (subs : List SubmissionItem)
    (c : ℚ) (hrule : r.ruleset = Ruleset.number) (hc : caToNum q.correctAnswer = some c) :
    questionScore r q subs = numberQuestionScore r q.number c subs := by
  unfold questionScore
  rw [hrule, hc]

lemma numberQuestionScore_of_exact (r : QuizRound) (qn : Int) (c : ℚ)
    (subs : List SubmissionItem) (h : 0 < (questionExact qn c subs).length) :
    numberQuestionScore r qn c subs = fun t =>
      ((questionExact qn c subs).filter (fun s => s.teamName == t)).length *
        getNumberPointsExact r := by
  simp only [numberQuestionScore]
  rw [if_pos h]

lemma numberQuestionScore_of_exact_apply (r : QuizRound) (qn : Int) (c : ℚ)
    (subs : List SubmissionItem) (t : String)
    (h : 0 < (questionExact qn c subs).length) :
    numberQuestionScore r qn c subs t =
      ((questionExact qn c subs).filter (fun s => s.teamName == t)).length *
        getNumberPointsExact r := by
  rw [numberQuestionScore_of_exact r qn c subs h]

lemma numberQuestionScore_of_closest (r : QuizRound) (qn : Int) (c : ℚ)
    (subs : List SubmissionItem) (h0 : ¬ 0 < (questionExact qn c subs).length)
    (h1 : (questionDiffs qn c subs).length ≠ 0) :
    numberQuestionScore r qn c subs = fun t =>
      ((questionDiffs qn c subs).filter (fun d => d.1 == t &&
          some d.2 == (questionDiffs qn c subs).foldl (fun m d => minOptQ m d.2) none)).length *
        getNumberPointsClosest r := by
  simp only [numberQuestionScore]
  rw [if_neg h0, if_neg h1]

lemma numberQuestionScore_of_closest_apply (r : QuizRound) (qn : Int) (c : ℚ)
    (subs : List SubmissionItem) (t : String)
    (h0 : ¬ 0 < (questionExact qn c subs).length)
    (h1 : (questionDiffs qn c subs).length ≠ 0) :
    numberQuestionScore r qn c subs t =
      ((questionDiffs qn c subs).filter (fun d => d.1 == t &&
          some d.2 == (questionDiffs qn c subs).foldl (fun m d => minOptQ m d.2) none)).length *
        getNumberPointsClosest r := by
  rw [numberQuestionScore_of_closest r qn c subs h0 h1]

lemma questionScore_number_apply (r : QuizRound) (q : Question) (subs : List SubmissionItem)
    (c : ℚ) (t : String) (hrule : r.ruleset = Ruleset.number)
    (hc : caToNum q.correctAnswer = some c) :
    questionScore r q subs t = numberQuestionScore r q.number c subs t := by
  rw [questionScore_number_eq r q subs c hrule hc]

/-- C1: in a number-ruleset round question with finite correct value, when
at least one submission's answer (the first entry found for the question
number) parses to exactly the correct value, every exactly-matching team
scores `pointsExactMatch` for this question and every team whose parsed
answer differs scores nothing for it.  Submission lists carry distinct
team names, per the data model's one-submission-per-team invariant. -/
theorem number_exact_match_awards
    (r : QuizRound) (q : Question) (subs : List SubmissionItem) (c : ℚ)
    (hrule : r.ruleset = Ruleset.number)
    (hc : caToNum q.correctAnswer = some c)
    (hnd : (subs.map SubmissionItem.teamName).Nodup)
    (hex : ∃ s ∈ subs, parsedNum s q.number = some c) :
    (∀ s ∈ subs, parsedNum s q.number = some c →
      questionScore r q subs s.teamName = getNumberPointsExact r) ∧
    (∀ s ∈ subs, ∀ n : ℚ, parsedNum s q.number = some n → n ≠ c →
      questionScore r q subs s.teamName = 0) := by
  obtain ⟨s₀, hs₀, hp₀⟩ := hex
  have hpos : 0 < (questionExact q.number c subs).length := by
    rw [List.length_pos]
    exact List.ne_nil_of_mem (List.mem_filter.mpr ⟨hs₀, by simp [hp₀]⟩)
  constructor
  · intro s hs hps
    rw [questionScore_number_apply r q subs c s.teamName hrule hc,
      numberQuestionScore_of_exact_apply r q.number c subs s.teamName hpos]
    unfold questionExact
    rw [List.filter_filter]
    rw [length_filter_key_of_mem SubmissionItem.teamName
      (fun y => parsedNum y q.number == some c) subs hnd s hs]
    simp [hps]
  · intro s hs n hpn hne
    rw [questionScore_number_apply r q subs c s.teamName hrule hc,
      numberQuestionScore_of_exact_apply r q.number c subs s.teamName hpos]
    unfold questionExact
    rw [List.filter_filter]
    rw [length_filter_key_of_mem SubmissionItem.teamName
      (fun y => parsedNum y q.number == some c) subs hnd s hs]
    simp [hpn, hne]

/-- C1 witness: the spec's worked example (correct 10, answers 10/8/12,
`pointsExactMatch` 3). -/
theorem number_exact_match_awards_witness :
    questionScore ⟨1, Ruleset.number, none, some 3, some 1, [⟨1, "q", [], .ca_num 10⟩]⟩
        ⟨1, "q", [], .ca_num 10⟩
        [⟨"z", "teamA", 1, [⟨1, .jnum 10⟩]⟩, ⟨"z", "teamB", 1, [⟨1, .jnum 8⟩]⟩,
          ⟨"z", "teamC", 1, [⟨1, .jnum 12⟩]⟩] "teamA" = 3 ∧
    questionScore ⟨1, Ruleset.number, none, some 3, some 1, [⟨1, "q", [], .ca_num 10⟩]⟩
        ⟨1, "q", [], .ca_num 10⟩
        [⟨"z", "teamA", 1, [⟨1, .jnum 10⟩]⟩, ⟨"z", "teamB", 1, [⟨1, .jnum 8⟩]⟩,
          ⟨"z", "teamC", 1, [⟨1, .jnum 12⟩]⟩] "teamB" = 0 := by
  have h := number_exact_match_awards
    ⟨1, Ruleset.number, none, some 3, some 1, [⟨1, "q", [], .ca_num 10⟩]⟩
    ⟨1, "q", [], .ca_num 10⟩
    [⟨"z", "teamA", 1, [⟨1, .jnum 10⟩]⟩, ⟨"z", "teamB", 1, [⟨1, .jnum 8⟩]⟩,
      ⟨"z", "teamC", 1, [⟨1, .jnum 12⟩]⟩] 10 rfl (by decide) (by decide)
    ⟨⟨"z", "teamA", 1, [⟨1, .jnum 10⟩]⟩, by decide, by decide⟩
  exact ⟨h.1 ⟨"z", "teamA", 1, [⟨1, .jnum 10⟩]⟩ (by decide) (by decide),
    h.2 ⟨"z", "teamB", 1, [⟨1, .jnum 8⟩]⟩ (by decide) 8 (by decide) (by decide)⟩

/-- C2: in a number-ruleset round question with finite correct value,
when no submission parses to exactly the correct value but at least one
parses to a finite number, exactly the teams whose absolute difference
from the correct value is minimal among the finite-parsing submissions
score `pointsClosestWithoutExactMatch`, in full; every other team scores
nothing for this question. -/
theorem number_closest_awards
    (r : QuizRound) (q : Question) (subs : List SubmissionItem) (c : ℚ)
    (hrule : r.ruleset = Ruleset.number)
    (hc : caToNum q.correctAnswer = some c)
    (hnd : (subs.map SubmissionItem.teamName).Nodup)
    (hnoex : ∀ s ∈ subs, parsedNum s q.number ≠ some c)
    (hfin : ∃ s ∈ subs, ∃ n : ℚ, parsedNum s q.number = some n) :
    (∀ s ∈ subs, ∀ n : ℚ, parsedNum s q.number = some n →
      ((∀ s' ∈ subs, ∀ n' : ℚ, parsedNum s' q.number = some n' → |n - c| ≤ |n' - c|) →
        questionScore r q subs s.teamName = getNumberPointsClosest r) ∧
      ((∃ s' ∈ subs, ∃ n' : ℚ, parsedNum s' q.number = some n' ∧ |n' - c| < |n - c|) →
        questionScore r q subs s.teamName = 0)) ∧
    (∀ s ∈ subs, parsedNum s q.number = none → questionScore r q subs s.teamName = 0) ∧
    (∀ t : String, t ∉ subs.map SubmissionItem.teamName → questionScore r q subs t = 0) := by
  have h0 : ¬ 0 < (questionExact q.number c subs).length := by
    have hnil : questionExact q.number c subs = [] :=
      List.filter_eq_nil_iff.mpr (fun s hs => by simp [hnoex s hs])
    simp [hnil]
  have h1 : (questionDiffs q.number c subs).length ≠ 0 := by
    obtain ⟨s₁, hs₁, n₁, hn₁⟩ := hfin
    have hne : n₁ ≠ c := fun h => hnoex s₁ hs₁ (h ▸ hn₁)
    have hmem := (mem_questionDiffs q.number c subs (s₁.teamName, |n₁ - c|)).mpr
      ⟨s₁, hs₁, n₁, hn₁, hne, rfl⟩
    simp [List.length_eq_zero]
    exact List.ne_nil_of_mem hmem
  have key : ∀ s ∈ subs, ∀ p : ℚ → Bool,
      ((questionDiffs q.number c subs).filter (fun d => d.1 == s.teamName && p d.2)).length
        = (diffVal q.number c s).elim 0 (fun b => if p b then 1 else 0) := by
    intro s hs p
    rw [questionDiffs_eq_filterMap]
    exact length_filter_fst_filterMap SubmissionItem.teamName (diffVal q.number c) p subs hnd s hs
  refine ⟨?_, ?_, ?_⟩
  · intro s hs n hpn
    have hne : n ≠ c := fun h => hnoex s hs (h ▸ hpn)
    have hdv : diffVal q.number c s = some |n - c| := by
      simp [diffVal, hpn, hne]
    have hds : (s.teamName, |n - c|) ∈ questionDiffs q.number c subs :=
      (mem_questionDiffs q.number c subs _).mpr ⟨s, hs, n, hpn, hne, rfl⟩
    constructor
    · intro hmin
      have hM : (questionDiffs q.number c subs).foldl (fun m e => minOptQ m e.2) none
          = some |n - c| := by
        rw [foldl_minOptQ_eq_iff (questionDiffs q.number c subs) (s.teamName, |n - c|) hds]
        intro e he
        obtain ⟨s', hs', n', hp', _, rfl⟩ := (mem_questionDiffs q.number c subs e).mp he
        exact hmin s' hs' n' hp'
      rw [questionScore_number_apply r q subs c s.teamName hrule hc,
        numberQuestionScore_of_closest_apply r q.number c subs s.teamName h0 h1,
        key s hs (fun v => some v == (questionDiffs q.number c subs).foldl
          (fun m d => minOptQ m d.2) none), hdv]
      simp [hM]
    · intro ⟨s', hs', n', hp', hlt⟩
      have hne' : n' ≠ c := fun h => hnoex s' hs' (h ▸ hp')
      have hds' : (s'.teamName, |n' - c|) ∈ questionDiffs q.number c subs :=
        (mem_questionDiffs q.number c subs _).mpr ⟨s', hs', n', hp', hne', rfl⟩
      have hMne : (questionDiffs q.number c subs).foldl (fun m e => minOptQ m e.2) none
          ≠ some |n - c| := by
        intro h
        have := foldl_minOptQ_le_mem (questionDiffs q.number c subs) none
          (s'.teamName, |n' - c|) hds' |n - c| h
        exact absurd this (not_le.mpr hlt)
      rw [questionScore_number_apply r q subs c s.teamName hrule hc,
        numberQuestionScore_of_closest_apply r q.number c subs s.teamName h0 h1,
        key s hs (fun v => some v == (questionDiffs q.number c subs).foldl
          (fun m d => minOptQ m d.2) none), hdv]
      have hne2 : ¬ some |n - c| = (questionDiffs q.number c subs).foldl
          (fun m d => minOptQ m d.2) none := fun h => hMne h.symm
      simp [hne2]
  · intro s hs hpnone
    have hdv : diffVal q.number c s = none := by simp [diffVal, hpnone]
    rw [questionScore_number_apply r q subs c s.teamName hrule hc,
      numberQuestionScore_of_closest_apply r q.number c subs s.teamName h0 h1,
      key s hs (fun v => some v == (questionDiffs q.number c subs).foldl
        (fun m d => minOptQ m d.2) none), hdv]
    simp
  · intro t ht
    rw [questionScore_number_apply r q subs c t hrule hc,
      numberQuestionScore_of_closest_apply r q.number c subs t h0 h1,
      questionDiffs_eq_filterMap]
    rw [notmem_length_filter_fst_filterMap SubmissionItem.teamName (diffVal q.number c)
      (fun v => some v == (subs.filterMap (fun y =>
        (diffVal q.number c y).map (fun v => (y.teamName, v)))).foldl
          (fun m d => minOptQ m d.2) none) t subs ht]
    simp

/-- C2 witness: the spec's worked example (correct 10, answers 8/9/15,
`pointsClosestWithoutExactMatch` 1): teamB is closest and scores 1,
teamA scores 0. -/
theorem number_closest_awards_witness :
    questionScore ⟨1, Ruleset.number, none, some 3, some 1, [⟨1, "q", [], .ca_num 10⟩]⟩
        ⟨1, "q", [], .ca_num 10⟩
        [⟨"z", "teamA", 1, [⟨1, .jnum 8⟩]⟩, ⟨"z", "teamB", 1, [⟨1, .jnum 9⟩]⟩,
          ⟨"z", "teamC", 1, [⟨1, .jnum 15⟩]⟩] "teamB" = 1 ∧
    questionScore ⟨1, Ruleset.number, none, some 3, some 1, [⟨1, "q", [], .ca_num 10⟩]⟩
        ⟨1, "q", [], .ca_num 10⟩
        [⟨"z", "teamA", 1, [⟨1, .jnum 8⟩]⟩, ⟨"z", "teamB", 1, [⟨1, .jnum 9⟩]⟩,
          ⟨"z", "teamC", 1, [⟨1, .jnum 15⟩]⟩] "teamA" = 0 := by
  have h := number_closest_awards
    ⟨1, Ruleset.number, none, some 3, some 1, [⟨1, "q", [], .ca_num 10⟩]⟩
    ⟨1, "q", [], .ca_num 10⟩
    [⟨"z", "teamA", 1, [⟨1, .jnum 8⟩]⟩, ⟨"z", "teamB", 1, [⟨1, .jnum 9⟩]⟩,
      ⟨"z", "teamC", 1, [⟨1, .jnum 15⟩]⟩] 10 rfl (by decide) (by decide) (by decide)
    ⟨⟨"z", "teamA", 1, [⟨1, .jnum 8⟩]⟩, by decide, 8, by decide⟩
  constructor
  · have hmin : ∀ s' ∈ [(⟨"z", "teamA", 1, [⟨1, .jnum 8⟩]⟩ : SubmissionItem),
        ⟨"z", "teamB", 1, [⟨1, .jnum 9⟩]⟩, ⟨"z", "teamC", 1, [⟨1, .jnum 15⟩]⟩],
        ∀ n' : ℚ, parsedNum s' 1 = some n' → |(9 : ℚ) - 10| ≤ |n' - 10| := by
      intro s' hs' n' hp'
      simp only [List.mem_cons, List.not_mem_nil, or_false] at hs'
      rcases hs' with rfl | rfl | rfl
      · have he : parsedNum (⟨"z", "teamA", 1, [⟨1, .jnum 8⟩]⟩ : SubmissionItem) 1
            = some 8 := by decide
        rw [he] at hp'
        obtain rfl := Option.some.inj hp'
        norm_num
      · have he : parsedNum (⟨"z", "teamB", 1, [⟨1, .jnum 9⟩]⟩ : SubmissionItem) 1
            = some 9 := by decide
        rw [he] at hp'
        obtain rfl := Option.some.inj hp'
        norm_num
      · have he : parsedNum (⟨"z", "teamC", 1, [⟨1, .jnum 15⟩]⟩ : SubmissionItem) 1
            = some 15 := by decide
        rw [he] at hp'
        obtain rfl := Option.some.inj hp'
        norm_num
    exact (h.1 ⟨"z", "teamB", 1, [⟨1, .jnum 9⟩]⟩ (by decide) 9 (by decide)).1 hmin
  · exact (h.1 ⟨"z", "teamA", 1, [⟨1, .jnum 8⟩]⟩ (by decide) 8 (by decide)).2
      ⟨⟨"z", "teamB", 1, [⟨1, .jnum 9⟩]⟩, by decide, 9, by decide, by norm_num⟩

lemma questionScore_mc_apply (r : QuizRound) (q : Question) (subs : List SubmissionItem)
    (t : String) (hrule : r.ruleset = Ruleset.multipleChoice) :
    questionScore r q subs t = mcQuestionScore r q subs t := by
  unfold questionScore
  rw [hrule]

lemma ansIsStrEq_iff_eq (v : JVal) (c : String) :
    ansIsStrEq v c = true ↔ v = JVal.jstr c := by
  cases v <;> simp [ansIsStrEq]

lemma mcCorrectLabel_of_not_str (ca : CorrectAnswer)
    (h : ∀ str : String, ca ≠ CorrectAnswer.ca_str str) :
    mcCorrectLabel ca = "" := by
  cases ca with
  | ca_str s => exact absurd rfl (h s)
  | ca_num q => rfl
  | ca_nan => rfl
  | ca_pair bg en => rfl
  | ca_absent => rfl

lemma mcQuestionScore_eval (r : QuizRound) (q : Question) (subs : List SubmissionItem)
    (hnd : (subs.map SubmissionItem.teamName).Nodup) (s : SubmissionItem) (hs : s ∈ subs) :
    mcQuestionScore r q subs s.teamName =
      (((if ansIsStrEq (findAnswerVal s q.number) (mcCorrectLabel q.correctAnswer)
          then 1 else 0 : ℕ) : ℚ)) * getRoundPointsPerCorrect r := by
  simp only [mcQuestionScore]
  rw [length_filter_key_of_mem SubmissionItem.teamName
    (fun y => ansIsStrEq (findAnswerVal y q.number) (mcCorrectLabel q.correctAnswer))
    subs hnd s hs]

/-- C6 counterexample: with correct label `"B"`, a submission whose answer
list contains an entry for question 1 with string value `"B"` — but only
after an earlier entry for the same question number — is awarded nothing,
because the scorer uses the first entry found; so "has an answer entry
... equal to the correct label" does not imply the award. -/
theorem mc_choice_award_counterexample :
    (∃ e ∈ ([⟨1, JVal.jstr "C"⟩, ⟨1, JVal.jstr "B"⟩] : List AnswerEntry),
      e.number = 1 ∧ e.answer = JVal.jstr "B") ∧
    questionScore ⟨1, Ruleset.multipleChoice, some 2, none, none, [⟨1, "q", [], .ca_str "B"⟩]⟩
      ⟨1, "q", [], .ca_str "B"⟩
      [⟨"z", "teamA", 1, [⟨1, JVal.jstr "C"⟩, ⟨1, JVal.jstr "B"⟩]⟩] "teamA" = 0 ∧
    getRoundPointsPerCorrect
      ⟨1, Ruleset.multipleChoice, some 2, none, none, [⟨1, "q", [], .ca_str "B"⟩]⟩ = 2 := by
  refine ⟨⟨⟨1, JVal.jstr "B"⟩, by decide, by decide, rfl⟩, ?_, rfl⟩
  rw [questionScore_mc_apply _ _ _ _ rfl,
    mcQuestionScore_eval _ _ _ (by decide) ⟨"z", "teamA", 1,
      [⟨1, JVal.jstr "C"⟩, ⟨1, JVal.jstr "B"⟩]⟩ (by decide)]
  have hfind : findAnswerVal (⟨"z", "teamA", 1,
      [⟨1, JVal.jstr "C"⟩, ⟨1, JVal.jstr "B"⟩]⟩ : SubmissionItem) 1 = JVal.jstr "C" := by
    decide
  rw [hfind]
  simp [ansIsStrEq, mcCorrectLabel]

/-- C6 (amended): in a multiple-choice round whose question stores a
string correct label, a team is awarded `pointsPerCorrectAnswer` for the
question exactly when the *first* answer entry found for the question
number is a string equal (exact, case-sensitive) to the label; otherwise
it receives nothing for the question.  (The unamended claim reads "has an
answer entry ... equal to the correct label"; with duplicate entry
numbers the scorer consults only the first, see the counterexample.) -/
theorem mc_choice_award
    (r : QuizRound) (q : Question) (subs : List SubmissionItem) (c : String)
    (hrule : r.ruleset = Ruleset.multipleChoice)
    (hq : q.correctAnswer = CorrectAnswer.ca_str c)
    (hnd : (subs.map SubmissionItem.teamName).Nodup) :
    ∀ s ∈ subs,
      (findAnswerVal s q.number = JVal.jstr c →
        questionScore r q subs s.teamName = getRoundPointsPerCorrect r) ∧
      (findAnswerVal s q.number ≠ JVal.jstr c →
        questionScore r q subs s.teamName = 0) := by
  intro s hs
  rw [questionScore_mc_apply r q subs s.teamName hrule,
    mcQuestionScore_eval r q subs hnd s hs]
  have hlabel : mcCorrectLabel q.correctAnswer = c := by rw [hq]; rfl
  rw [hlabel]
  constructor
  · intro h
    rw [if_pos ((ansIsStrEq_iff_eq _ _).mpr h)]
    simp
  · intro h
    rw [if_neg (fun hb => h ((ansIsStrEq_iff_eq _ _).mp hb))]
    simp

/-- C6 witness: the spec's example (correct `"B"`,
`pointsPerCorrectAnswer` 2, teamA answers `"B"`, teamB answers `"C"`). -/
theorem mc_choice_award_witness :
    questionScore ⟨1, Ruleset.multipleChoice, some 2, none, none, [⟨1, "q", [], .ca_str "B"⟩]⟩
      ⟨1, "q", [], .ca_str "B"⟩
      [⟨"z", "teamA", 1, [⟨1, JVal.jstr "B"⟩]⟩, ⟨"z", "teamB", 1, [⟨1, JVal.jstr "C"⟩]⟩]
      "teamA" = 2 ∧
    questionScore ⟨1, Ruleset.multipleChoice, some 2, none, none, [⟨1, "q", [], .ca_str "B"⟩]⟩
      ⟨1, "q", [], .ca_str "B"⟩
      [⟨"z", "teamA", 1, [⟨1, JVal.jstr "B"⟩]⟩, ⟨"z", "teamB", 1, [⟨1, JVal.jstr "C"⟩]⟩]
      "teamB" = 0 := by
  have h := mc_choice_award
    ⟨1, Ruleset.multipleChoice, some 2, none, none, [⟨1, "q", [], .ca_str "B"⟩]⟩
    ⟨1, "q", [], .ca_str "B"⟩
    [⟨"z", "teamA", 1, [⟨1, JVal.jstr "B"⟩]⟩, ⟨"z", "teamB", 1, [⟨1, JVal.jstr "C"⟩]⟩]
    "B" rfl rfl (by decide)
  exact ⟨(h ⟨"z", "teamA", 1, [⟨1, JVal.jstr "B"⟩]⟩ (by decide)).1 (by decide),
    (h ⟨"z", "teamB", 1, [⟨1, JVal.jstr "C"⟩]⟩ (by decide)).2 (by decide)⟩

/-- C10 counterexample: with `correctAnswer` absent, a submission that
contains an entry for question 1 with the empty-string value — but
preceded by another entry for the same number — is awarded nothing,
because only the first entry found is consulted; so "contains an answer
entry ... whose value is the empty string" does not imply the award. -/
theorem mc_empty_label_counterexample :
    (∃ e ∈ ([⟨1, JVal.jstr "x"⟩, ⟨1, JVal.jstr ""⟩] : List AnswerEntry),
      e.number = 1 ∧ e.answer = JVal.jstr "") ∧
    questionScore ⟨1, Ruleset.multipleChoice, none, none, none, [⟨1, "q", [], .ca_absent⟩]⟩
      ⟨1, "q", [], .ca_absent⟩
      [⟨"z", "teamA", 1, [⟨1, JVal.jstr "x"⟩, ⟨1, JVal.jstr ""⟩]⟩] "teamA" = 0 ∧
    getRoundPointsPerCorrect
      ⟨1, Ruleset.multipleChoice, none, none, none, [⟨1, "q", [], .ca_absent⟩]⟩ = 1 := by
  refine ⟨⟨⟨1, JVal.jstr ""⟩, by decide, by decide, rfl⟩, ?_, rfl⟩
  rw [questionScore_mc_apply _ _ _ _ rfl,
    mcQuestionScore_eval _ _ _ (by decide) ⟨"z", "teamA", 1,
      [⟨1, JVal.jstr "x"⟩, ⟨1, JVal.jstr ""⟩]⟩ (by decide)]
  have hfind : findAnswerVal (⟨"z", "teamA", 1,
      [⟨1, JVal.jstr "x"⟩, ⟨1, JVal.jstr ""⟩]⟩ : SubmissionItem) 1 = JVal.jstr "x" := by
    decide
  rw [hfind]
  simp [ansIsStrEq, mcCorrectLabel]

/-- C10 (amended): in a multiple-choice round whose question stores no
string correct answer, the scorer compares against the empty label, so a
team whose *first* answer entry found for the question number is the
empty string is awarded `pointsPerCorrectAnswer` for that question. -/
theorem mc_empty_label_award
    (r : QuizRound) (q : Question) (subs : List SubmissionItem)
    (hrule : r.ruleset = Ruleset.multipleChoice)
    (hq : ∀ str : String, q.correctAnswer ≠ CorrectAnswer.ca_str str)
    (hnd : (subs.map SubmissionItem.teamName).Nodup) :
    ∀ s ∈ subs, findAnswerVal s q.number = JVal.jstr "" →
      questionScore r q subs s.teamName = getRoundPointsPerCorrect r := by
  intro s hs h
  rw [questionScore_mc_apply r q subs s.teamName hrule,
    mcQuestionScore_eval r q subs hnd s hs, mcCorrectLabel_of_not_str q.correctAnswer hq]
  rw [if_pos ((ansIsStrEq_iff_eq _ _).mpr h)]
  simp

/-- C10 witness: `correctAnswer` absent, a single empty-string answer is
awarded the default 1 point. -/
theorem mc_empty_label_award_witness :
    questionScore ⟨1, Ruleset.multipleChoice, none, none, none, [⟨1, "q", [], .ca_absent⟩]⟩
      ⟨1, "q", [], .ca_absent⟩
      [⟨"z", "teamA", 1, [⟨1, JVal.jstr ""⟩]⟩] "teamA" = 1 := by
  have h := mc_empty_label_award
    ⟨1, Ruleset.multipleChoice, none, none, none, [⟨1, "q", [], .ca_absent⟩]⟩
    ⟨1, "q", [], .ca_absent⟩
    [⟨"z", "teamA", 1, [⟨1, JVal.jstr ""⟩]⟩] rfl (by intro str h; cases h) (by decide)
  exact h ⟨"z", "teamA", 1, [⟨1, JVal.jstr ""⟩]⟩ (by decide) (by decide)

lemma ftRatioOk_iff (answer c : String) (h : answer ≠ "") :
    ftRatioOk answer c = true ↔
      (levenshteinDistance answer c : ℚ) / ((max answer.length c.length : ℕ) : ℚ) ≤ 3 / 20 := by
  unfold ftRatioOk
  have hlen : answer.length ≠ 0 := by
    intro hl
    apply h
    cases answer
    simp only [String.length] at hl
    rw [List.length_eq_zero] at hl
    simp [hl]
  have hd : ¬ max answer.length c.length = 0 := by
    rw [Nat.max_eq_zero_iff]
    exact fun hm => hlen hm.1
  rw [if_neg hd]
  simp only [decide_eq_true_eq]

/-- C5: `isFreeTextCorrect` returns true exactly when the normalized
answer is non-empty, the candidate list (normalized non-empty `bg`/`en`
fields of a pair, or a bare string for both) is non-empty, and some
candidate is within normalized edit ratio `3/20` (`0.15`) of the answer;
and an empty submitted answer is never correct.  The `denom == 0` guard
of the source is unreachable here because the answer is non-empty. -/
theorem isFreeTextCorrect_iff (a : JVal) (correct : CorrectAnswer) :
    (isFreeTextCorrect a correct = true ↔
      (normalizeText a ≠ "" ∧ ftCandidates correct ≠ [] ∧
        ∃ cand ∈ ftCandidates correct,
          (levenshteinDistance (normalizeText a) cand : ℚ) /
            ((max (normalizeText a).length cand.length : ℕ) : ℚ) ≤ 3 / 20)) ∧
    isFreeTextCorrect (JVal.jstr "") correct = false := by
  constructor
  · by_cases h1 : normalizeText a = ""
    · have hfalse : isFreeTextCorrect a correct = false := by
        unfold isFreeTextCorrect
        rw [if_pos h1]
      rw [hfalse]
      simp [h1]
    · by_cases h2 : ftCandidates correct = []
      · have hfalse : isFreeTextCorrect a correct = false := by
          unfold isFreeTextCorrect
          rw [if_neg h1]
          simp [h2]
        rw [hfalse]
        simp [h2]
      · have heval : isFreeTextCorrect a correct =
            (ftCandidates correct).any (fun c => ftRatioOk (normalizeText a) c) := by
          unfold isFreeTextCorrect
          rw [if_neg h1, if_neg (by simp [h2] : ¬ (ftCandidates correct).isEmpty = true)]
        rw [heval, List.any_eq_true]
        constructor
        · rintro ⟨x, hx, hr⟩
          exact ⟨h1, h2, x, hx, (ftRatioOk_iff _ x h1).mp hr⟩
        · rintro ⟨-, -, x, hx, hr⟩
          exact ⟨x, hx, (ftRatioOk_iff _ x h1).mpr hr⟩
  · have h0 : normalizeText (JVal.jstr "") = "" := by decide
    unfold isFreeTextCorrect
    rw [if_pos h0]

/-- C5 witness: a normalized answer equal to the `en` candidate (edit
distance 0, ratio 0 ≤ 0.15) is accepted, via the characterization. -/
theorem isFreeTextCorrect_iff_witness :
    isFreeTextCorrect (JVal.jstr " moscow ")
      (CorrectAnswer.ca_pair (some "москва") (some "moscow")) = true := by
  apply (isFreeTextCorrect_iff (JVal.jstr " moscow ")
    (CorrectAnswer.ca_pair (some "москва") (some "moscow"))).1.mpr
  refine ⟨by decide, by decide, "moscow", by decide, ?_⟩
  have h : levenshteinDistance (normalizeText (JVal.jstr " moscow ")) "moscow" = 0 := by
    decide
  have h2 : (normalizeText (JVal.jstr " moscow ")).length = 6 := by decide
  rw [h, h2]
  norm_num

/-! ### The words model of the normalizer (C8) -/

/-- The end-trimming half of `trim`. -/
def trimEnd (l : List Char) : List Char :=
  (l.reverse.dropWhile isJsWhitespace).reverse

lemma jsTrimList_eq_trimEnd (l : List Char) :
    jsTrimList l = trimEnd (l.dropWhile isJsWhitespace) := rfl

/-- The whitespace-separated words of a character list, in order, without
empty words. -/
def wordsOf : List Char → List (List Char)
  | [] => []
  | c :: cs =>
    if isJsWhitespace c then wordsOf cs
    else (c :: cs.takeWhile (fun d => !isJsWhitespace d)) ::
      wordsOf (cs.dropWhile (fun d => !isJsWhitespace d))
termination_by l => l.length
decreasing_by
  · simp only [List.length_cons]
    omega
  · simp only [List.length_cons]
    have := (List.dropWhile_sublist (l := cs) (fun d => !isJsWhitespace d)).length_le
    omega

/-- Words joined by single spaces. -/
def joinWords : List (List Char) → List Char
  | [] => []
  | [w] => w
  | w :: ws => w ++ ' ' :: joinWords ws

/-- The spec's description of `normalize`, as an independent computation:
null/undefined become the empty string; any other value is converted to
its string form, cut into whitespace-separated words, each word
lowercased, and the words joined by single spaces (which trims the ends
and collapses every whitespace run). -/
def normalizeSpec : JVal → String
  | .jnull => ""
  | v => ⟨joinWords ((wordsOf (jsToString v).toList).map (List.map jsToLowerChar))⟩

lemma char_toNat_ofNat (n : ℕ) (h : n < 55296) : (Char.ofNat n).toNat = n := by
  simp [Char.ofNat, Char.toNat, Nat.isValidChar, h, Char.ofNatAux, UInt32.toNat, UInt32.ofNat']

lemma isJsWhitespace_jsToLowerChar (c : Char) :
    isJsWhitespace (jsToLowerChar c) = isJsWhitespace c := by
  unfold jsToLowerChar
  by_cases h : 65 ≤ c.toNat ∧ c.toNat ≤ 90
  · rw [if_pos h]
    have ht : (Char.ofNat (c.toNat + 32)).toNat = c.toNat + 32 :=
      char_toNat_ofNat (c.toNat + 32) (by omega)
    have h1 : isJsWhitespace (Char.ofNat (c.toNat + 32)) = false := by
      simp only [isJsWhitespace, decide_eq_false_iff_not, ht]
      omega
    have h2 : isJsWhitespace c = false := by
      simp only [isJsWhitespace, decide_eq_false_iff_not]
      omega
    rw [h1, h2]
  · rw [if_neg h]

lemma dropWhile_append_of_forall {p : Char → Bool} :
    ∀ (u v : List Char), (∀ c ∈ u, p c = true) →
      (u ++ v).dropWhile p = v.dropWhile p := by
  intro u
  induction u with
  | nil => intro v _; rfl
  | cons d u ih =>
    intro v h
    rw [List.cons_append, List.dropWhile_cons, if_pos (h d (List.mem_cons_self d u))]
    exact ih v (fun c hc => h c (List.mem_cons_of_mem d hc))

lemma dropWhile_append_of_ne_nil {p : Char → Bool} :
    ∀ (u v : List Char), u.dropWhile p ≠ [] →
      (u ++ v).dropWhile p = u.dropWhile p ++ v := by
  intro u
  induction u with
  | nil => intro v h; exact absurd rfl h
  | cons d u ih =>
    intro v h
    rw [List.dropWhile_cons] at h
    rw [List.cons_append, List.dropWhile_cons, List.dropWhile_cons]
    by_cases hd : p d
    · rw [if_pos hd, if_pos hd]
      rw [if_pos hd] at h
      exact ih v h
    · rw [if_neg hd, if_neg hd, List.cons_append]

lemma dropWhile_eq_self_of_head {p : Char → Bool} (l : List Char)
    (h : ∀ c t, l = c :: t → p c = false) : l.dropWhile p = l := by
  cases l with
  | nil => rfl
  | cons c t => rw [List.dropWhile_cons, if_neg (by simp [h c t rfl])]

lemma head_of_dropWhile {p : Char → Bool} :
    ∀ (l : List Char) (c : Char) (t : List Char), l.dropWhile p = c :: t → p c = false := by
  intro l
  induction l with
  | nil => intro c t h; simp at h
  | cons d l ih =>
    intro c t h
    rw [List.dropWhile_cons] at h
    by_cases hd : p d
    · rw [if_pos hd] at h
      exact ih c t h
    · rw [if_neg hd] at h
      cases h
      simpa using hd

lemma trimEnd_append_of_forall (a b : List Char) (h : ∀ c ∈ b, isJsWhitespace c = true) :
    trimEnd (a ++ b) = trimEnd a := by
  unfold trimEnd
  rw [List.reverse_append, dropWhile_append_of_forall b.reverse a.reverse
    (fun c hc => h c (List.mem_reverse.mp hc))]

lemma trimEnd_append_of_exists (a b : List Char)
    (h : ∃ c ∈ b, isJsWhitespace c = false) :
    trimEnd (a ++ b) = a ++ trimEnd b := by
  unfold trimEnd
  obtain ⟨c, hc, hws⟩ := h
  have hne : b.reverse.dropWhile isJsWhitespace ≠ [] := by
    intro hnil
    rw [List.dropWhile_eq_nil_iff] at hnil
    have := hnil c (List.mem_reverse.mpr hc)
    rw [hws] at this
    cases this
  rw [List.reverse_append, dropWhile_append_of_ne_nil b.reverse a.reverse hne,
    List.reverse_append, List.reverse_reverse]

lemma trimEnd_of_forall_not (w : List Char) (h : ∀ c ∈ w, isJsWhitespace c = false) :
    trimEnd w = w := by
  unfold trimEnd
  rw [dropWhile_eq_self_of_head w.reverse
    (fun c t hct => by
      have : c ∈ w.reverse := hct ▸ List.mem_cons_self c t
      exact h c (List.mem_reverse.mp this)),
    List.reverse_reverse]

lemma trimEnd_prefix (l : List Char) : trimEnd l <+: l := by
  unfold trimEnd
  have h := List.dropWhile_suffix (l := l.reverse) isJsWhitespace
  have := h.reverse
  rwa [List.reverse_reverse] at this

lemma collapseWsAux_append_words (X : List Char) :
    ∀ w : List Char, (∀ c ∈ w, isJsWhitespace c = false) →
      collapseWsAux false (w ++ X) = w ++ collapseWsAux false X := by
  intro w
  induction w with
  | nil => intro _; rfl
  | cons d w ih =>
    intro h
    rw [List.cons_append, collapseWsAux, if_neg (by simp [h d (List.mem_cons_self d w)])]
    rw [List.cons_append]
    exact congrArg (d :: ·) (ih (fun c hc => h c (List.mem_cons_of_mem d hc)))

lemma collapseWsAux_ws_run (X : List Char) :
    ∀ (r : List Char) (b : Bool), r ≠ [] → (∀ c ∈ r, isJsWhitespace c = true) →
      collapseWsAux b (r ++ X) =
        (if b then [] else [' ']) ++ collapseWsAux true X := by
  intro r
  induction r with
  | nil => intro b h _; exact absurd rfl h
  | cons d r ih =>
    intro b _ h
    have hd : isJsWhitespace d = true := h d (List.mem_cons_self d r)
    cases r with
    | nil =>
      cases b with
      | false => simp [collapseWsAux, hd]
      | true => simp [collapseWsAux, hd]
    | cons e r' =>
      have hr : e :: r' ≠ [] := by simp
      have hall : ∀ c ∈ e :: r', isJsWhitespace c = true :=
        fun c hc => h c (List.mem_cons_of_mem d hc)
      cases b with
      | false =>
        rw [List.cons_append, collapseWsAux, if_pos hd]
        simp only [Bool.false_eq_true, if_false]
        rw [ih true hr hall]
        rfl
      | true =>
        rw [List.cons_append, collapseWsAux, if_pos hd]
        simp only [if_true]
        rw [ih true hr hall]
        rfl

lemma collapseWsAux_true_eq_false (X : List Char)
    (h : ∀ c t, X = c :: t → isJsWhitespace c = false) :
    collapseWsAux true X = collapseWsAux false X := by
  cases X with
  | nil => rfl
  | cons c t =>
    rw [collapseWsAux, collapseWsAux, if_neg (by simp [h c t rfl]),
      if_neg (by simp [h c t rfl])]

lemma wordsOf_eq_nil_iff_bounded : ∀ (n : ℕ) (l : List Char), l.length ≤ n →
    (wordsOf l = [] ↔ ∀ c ∈ l, isJsWhitespace c = true) := by
  intro n
  induction n with
  | zero =>
    intro l hl
    rw [List.eq_nil_of_length_eq_zero (Nat.le_zero.mp hl)]
    simp [wordsOf]
  | succ n ih =>
    intro l hl
    cases l with
    | nil => simp [wordsOf]
    | cons c cs =>
      by_cases hc : isJsWhitespace c
      · simp only [wordsOf]
        rw [if_pos hc, ih cs (by simp at hl; omega)]
        simp [hc]
      · simp only [wordsOf]
        rw [if_neg hc]
        constructor
        · intro h; simp at h
        · intro h
          exact absurd (h c (List.mem_cons_self c cs)) hc

lemma wordsOf_eq_nil_iff (l : List Char) :
    wordsOf l = [] ↔ ∀ c ∈ l, isJsWhitespace c = true :=
  wordsOf_eq_nil_iff_bounded l.length l le_rfl

lemma wordsOf_ws_prefix (X : List Char) :
    ∀ r : List Char, (∀ c ∈ r, isJsWhitespace c = true) →
      wordsOf (r ++ X) = wordsOf X := by
  intro r
  induction r with
  | nil => intro _; rfl
  | cons d r ih =>
    intro h
    rw [List.cons_append, wordsOf, if_pos (h d (List.mem_cons_self d r))]
    exact ih (fun c hc => h c (List.mem_cons_of_mem d hc))

lemma joinWords_cons (w : List Char) (ws : List (List Char)) (h : ws ≠ []) :
    joinWords (w :: ws) = w ++ ' ' :: joinWords ws := by
  cases ws with
  | nil => exact absurd rfl h
  | cons w' ws' => rfl

lemma collapse_trim_eq_joinWords_bounded : ∀ (n : ℕ) (l : List Char), l.length ≤ n →
    collapseWsAux false (jsTrimList l) = joinWords (wordsOf l) := by
  intro n
  induction n with
  | zero =>
    intro l hl
    rw [List.eq_nil_of_length_eq_zero (Nat.le_zero.mp hl)]
    simp only [wordsOf]
    rfl
  | succ n ih =>
    intro l hl
    cases l with
    | nil =>
      simp only [wordsOf]
      rfl
    | cons c cs =>
      by_cases hc : isJsWhitespace c
      · have h1 : jsTrimList (c :: cs) = jsTrimList cs := by
          unfold jsTrimList
          rw [List.dropWhile_cons, if_pos hc]
        have h2 : wordsOf (c :: cs) = wordsOf cs := by
          simp only [wordsOf]
          rw [if_pos hc]
        rw [h1, h2]
        exact ih cs (by simp at hl; omega)
      · set w := c :: cs.takeWhile (fun d => !isJsWhitespace d) with hwEq
        set rest := cs.dropWhile (fun d => !isJsWhitespace d) with hrestEq
        have hdecomp : c :: cs = w ++ rest := by
          rw [hwEq, hrestEq, List.cons_append, List.takeWhile_append_dropWhile]
        have hw_nonws : ∀ d ∈ w, isJsWhitespace d = false := by
          intro d hd
          rcases List.mem_cons.mp hd with rfl | hd'
          · exact Bool.eq_false_iff.mpr hc
          · have := List.mem_takeWhile_imp hd'
            simpa using this
        have hwords : wordsOf (c :: cs) = w :: wordsOf rest := by
          simp only [wordsOf]
          rw [if_neg hc]
        have hjt : jsTrimList (c :: cs) = trimEnd (c :: cs) := by
          rw [jsTrimList_eq_trimEnd, List.dropWhile_cons, if_neg hc]
        by_cases hall : ∀ d ∈ rest, isJsWhitespace d = true
        · have htrim : trimEnd (c :: cs) = w := by
            rw [hdecomp, trimEnd_append_of_forall w rest hall, trimEnd_of_forall_not w hw_nonws]
          have hwnil : wordsOf rest = [] := (wordsOf_eq_nil_iff rest).mpr hall
          rw [hjt, htrim, hwords, hwnil]
          have hcoll : collapseWsAux false w = w := by
            have h0 := collapseWsAux_append_words [] w hw_nonws
            rw [List.append_nil] at h0
            rw [h0]
            simp
            rfl
          rw [hcoll]
          rfl
        · push_neg at hall
          obtain ⟨d0, hd0, hd0ws⟩ := hall
          have hd0f : isJsWhitespace d0 = false := Bool.eq_false_iff.mpr hd0ws
          set r := rest.takeWhile isJsWhitespace with hrEq
          set rest₂ := rest.dropWhile isJsWhitespace with hrest2Eq
          have hrdecomp : rest = r ++ rest₂ := (List.takeWhile_append_dropWhile _ _).symm
          have hr_ws : ∀ d ∈ r, isJsWhitespace d = true := fun d hd => List.mem_takeWhile_imp hd
          have hrest2_ne : rest₂ ≠ [] := by
            intro hnil
            rw [hrest2Eq, List.dropWhile_eq_nil_iff] at hnil
            rw [hnil d0 hd0] at hd0f
            cases hd0f
          have hrest2_head : ∀ d t, rest₂ = d :: t → isJsWhitespace d = false := by
            intro d t hdt
            exact head_of_dropWhile rest d t (by rw [← hrest2Eq]; exact hdt)
          have hrest_ne : rest ≠ [] := by
            intro hnil
            rw [hnil] at hd0
            cases hd0
          have hrest_head_ws : ∀ d t, rest = d :: t → isJsWhitespace d = true := by
            intro d t hdt
            have := head_of_dropWhile cs d t (by rw [← hrestEq]; exact hdt)
            simpa using this
          have hr_ne : r ≠ [] := by
            cases hre : rest with
            | nil => exact absurd hre hrest_ne
            | cons d t =>
              rw [hrEq, hre, List.takeWhile_cons, if_pos (hrest_head_ws d t hre)]
              simp
          have hex2 : ∃ d ∈ rest₂, isJsWhitespace d = false := by
            cases hre : rest₂ with
            | nil => exact absurd hre hrest2_ne
            | cons d t => exact ⟨d, hre ▸ List.mem_cons_self d t, hrest2_head d t hre⟩
          have htrim : trimEnd (c :: cs) = w ++ (r ++ trimEnd rest₂) := by
            rw [hdecomp, hrdecomp]
            rw [trimEnd_append_of_exists w (r ++ rest₂)
              (by obtain ⟨d, hd, hf⟩ := hex2
                  exact ⟨d, List.mem_append_right r hd, hf⟩)]
            rw [trimEnd_append_of_exists r rest₂ hex2]
          have hL1 : collapseWsAux false (w ++ (r ++ trimEnd rest₂)) =
              w ++ collapseWsAux false (r ++ trimEnd rest₂) :=
            collapseWsAux_append_words _ w hw_nonws
          have hL2 : collapseWsAux false (r ++ trimEnd rest₂) =
              [' '] ++ collapseWsAux true (trimEnd rest₂) := by
            have := collapseWsAux_ws_run (trimEnd rest₂) r false hr_ne hr_ws
            simpa using this
          have hL3 : collapseWsAux true (trimEnd rest₂) =
              collapseWsAux false (trimEnd rest₂) := by
            apply collapseWsAux_true_eq_false
            intro d t hdt
            obtain ⟨u, hu⟩ := trimEnd_prefix rest₂
            rw [hdt] at hu
            exact hrest2_head d (t ++ u) (by rw [← hu]; rfl)
          have hjt2 : jsTrimList rest₂ = trimEnd rest₂ := by
            rw [jsTrimList_eq_trimEnd, dropWhile_eq_self_of_head rest₂ hrest2_head]
          have hlen2 : rest₂.length ≤ n := by
            have l1 := (List.dropWhile_sublist (l := rest) isJsWhitespace).length_le
            have l2 := (List.dropWhile_sublist (l := cs) (fun d => !isJsWhitespace d)).length_le
            rw [← hrest2Eq] at l1
            rw [← hrestEq] at l2
            simp only [List.length_cons] at hl
            omega
          have hIH : collapseWsAux false (jsTrimList rest₂) = joinWords (wordsOf rest₂) :=
            ih rest₂ hlen2
          have hwr : wordsOf rest = wordsOf rest₂ := by
            rw [hrdecomp]
            exact wordsOf_ws_prefix rest₂ r hr_ws
          have hwr2_ne : wordsOf rest₂ ≠ [] := by
            intro hnil
            rw [wordsOf_eq_nil_iff] at hnil
            obtain ⟨d, hd, hf⟩ := hex2
            rw [hnil d hd] at hf
            cases hf
          rw [hjt, htrim, hL1, hL2, hL3, ← hjt2, hIH, hwords, hwr,
            joinWords_cons w _ hwr2_ne]
          simp

lemma jsTrimList_map_lower (l : List Char) :
    jsTrimList (l.map jsToLowerChar) = (jsTrimList l).map jsToLowerChar := by
  have hcomp : (isJsWhitespace ∘ jsToLowerChar) = isJsWhitespace :=
    funext isJsWhitespace_jsToLowerChar
  unfold jsTrimList
  rw [List.dropWhile_map, hcomp, ← List.map_reverse, List.dropWhile_map, hcomp,
    ← List.map_reverse]

lemma wordsOf_map_lower_bounded : ∀ (n : ℕ) (l : List Char), l.length ≤ n →
    wordsOf (l.map jsToLowerChar) = (wordsOf l).map (List.map jsToLowerChar) := by
  intro n
  induction n with
  | zero =>
    intro l hl
    rw [List.eq_nil_of_length_eq_zero (Nat.le_zero.mp hl)]
    simp [wordsOf]
  | succ n ih =>
    intro l hl
    cases l with
    | nil => simp [wordsOf]
    | cons c cs =>
      have hws := isJsWhitespace_jsToLowerChar c
      by_cases hc : isJsWhitespace c
      · rw [List.map_cons]
        simp only [wordsOf]
        rw [if_pos (by rw [hws]; exact hc), if_pos hc]
        exact ih cs (by simp only [List.length_cons] at hl; omega)
      · rw [List.map_cons]
        simp only [wordsOf]
        rw [if_neg (by rw [hws]; exact hc), if_neg hc]
        have hnp : ((fun d => !isJsWhitespace d) ∘ jsToLowerChar) =
            (fun d => !isJsWhitespace d) := by
          funext d
          simp [Function.comp, isJsWhitespace_jsToLowerChar]
        rw [List.takeWhile_map, List.dropWhile_map, hnp]
        rw [ih (cs.dropWhile (fun d => !isJsWhitespace d)) (by
          have := (List.dropWhile_sublist (l := cs) (fun d => !isJsWhitespace d)).length_le
          simp only [List.length_cons] at hl
          omega)]
        simp

lemma normalize_core (raw : List Char) :
    collapseWs ((jsTrimList raw).map jsToLowerChar) =
      joinWords ((wordsOf raw).map (List.map jsToLowerChar)) := by
  unfold collapseWs
  rw [← jsTrimList_map_lower raw]
  rw [collapse_trim_eq_joinWords_bounded (raw.map jsToLowerChar).length _ le_rfl]
  rw [wordsOf_map_lower_bounded raw.length raw le_rfl]

/-- C8 counterexample: `NaN` is neither null nor a string, yet
`normalizeText` converts it to its string form `"NaN"` and yields
`"nan"`, not the empty string the claim prescribes for non-string
inputs. -/
theorem normalizeText_counterexample :
    normalizeText JVal.jnan = "nan" ∧ ("nan" : String) ≠ "" :=
  ⟨by decide, by decide⟩

/-- C8 (amended): `normalizeText` returns the empty string when the input
is null or undefined; any other value is converted to its string form,
trimmed, lowercased, and every whitespace run collapsed to one space —
stated against the independent words model `normalizeSpec` (split into
whitespace-separated words, lowercase them, join by single spaces).  The
function is pure and total by construction. -/
theorem normalizeText_eq_spec (v : JVal) : normalizeText v = normalizeSpec v := by
  have hgen : ∀ u : JVal,
      String.mk (collapseWs ((jsTrimList (jsToString u).toList).map jsToLowerChar)) =
        String.mk (joinWords ((wordsOf (jsToString u).toList).map (List.map jsToLowerChar))) :=
    fun u => congrArg String.mk (normalize_core _)
  cases v with
  | jnull => decide
  | jstr s => exact hgen (JVal.jstr s)
  | jnum q => exact hgen (JVal.jnum q)
  | jnan => exact hgen JVal.jnan

/-! ### Sorting lemmas -/

lemma perm_insertBefore {α : Type} (lt : α → α → Bool) (x : α) :
    ∀ l : List α, (insertBefore lt x l).Perm (x :: l) := by
  intro l
  induction l with
  | nil => exact List.Perm.refl _
  | cons y l ih =>
    rw [insertBefore]
    by_cases h : lt y x
    · rw [if_pos h]
      exact (ih.cons y).trans (List.Perm.swap x y l)
    · rw [if_neg h]

lemma perm_stableSortBy {α : Type} (lt : α → α → Bool) :
    ∀ l : List α, (stableSortBy lt l).Perm l := by
  intro l
  induction l with
  | nil => exact List.Perm.refl _
  | cons x l ih =>
    rw [stableSortBy]
    exact (perm_insertBefore lt x (stableSortBy lt l)).trans (ih.cons x)

lemma filter_insertByNum (x : ParsedAnswer) (m : ℕ) :
    ∀ l : List ParsedAnswer,
      ((insertBefore (fun a b => a.number < b.number) x l).filter
          (fun e => e.number == m))
        = if x.number = m
          then x :: l.filter (fun e => e.number == m)
          else l.filter (fun e => e.number == m) := by
  intro l
  induction l with
  | nil =>
    by_cases hx : x.number = m
    · simp [insertBefore, List.filter, hx]
    · have hxf : (x.number == m) = false := by simp [hx]
      simp [insertBefore, List.filter, hxf, hx]
  | cons y l ih =>
    rw [insertBefore]
    by_cases h : y.number < x.number
    · rw [if_pos (by simpa using h)]
      by_cases hx : x.number = m
      · have hy : (y.number == m) = false := by
          simp only [beq_eq_false_iff_ne, ne_eq]
          omega
        rw [List.filter_cons, List.filter_cons]
        simp only [hy, Bool.false_eq_true, if_false]
        rw [ih]
      · rw [List.filter_cons, List.filter_cons]
        by_cases hy : y.number = m
        · simp only [hy, beq_self_eq_true, if_true]
          rw [ih]
          simp [hx]
        · have hyf : (y.number == m) = false := by simp [hy]
          simp only [hyf, Bool.false_eq_true, if_false]
          rw [ih]
    · rw [if_neg (by simpa using h)]
      by_cases hx : x.number = m
      · rw [List.filter_cons]
        simp [hx]
      · rw [List.filter_cons]
        have hxf : (x.number == m) = false := by simp [hx]
        simp only [hxf, Bool.false_eq_true, if_false]
        simp [hx]

lemma filter_stableSortByNum (m : ℕ) :
    ∀ l : List ParsedAnswer,
      ((stableSortBy (fun a b => a.number < b.number) l).filter (fun e => e.number == m))
        = l.filter (fun e => e.number == m) := by
  intro l
  induction l with
  | nil => rfl
  | cons x l ih =>
    rw [stableSortBy, filter_insertByNum]
    by_cases hx : x.number = m
    · rw [if_pos hx, ih, List.filter_cons, if_pos (by simp [hx])]
    · rw [if_neg hx, ih, List.filter_cons]
      have hxf : (x.number == m) = false := by simp [hx]
      rw [hxf]
      simp

lemma mem_insertBefore {α : Type} (lt : α → α → Bool) (x a : α) (l : List α) :
    a ∈ insertBefore lt x l ↔ a = x ∨ a ∈ l := by
  constructor
  · intro h
    have hm := (perm_insertBefore lt x l).mem_iff.mp h
    rcases List.mem_cons.mp hm with rfl | h'
    · exact Or.inl rfl
    · exact Or.inr h'
  · intro h
    apply (perm_insertBefore lt x l).mem_iff.mpr
    rcases h with rfl | h
    · exact List.mem_cons_self a l
    · exact List.mem_cons_of_mem x h

lemma sorted_insertByNum (x : ParsedAnswer) :
    ∀ l : List ParsedAnswer, l.Pairwise (fun a b => a.number ≤ b.number) →
      (insertBefore (fun a b => a.number < b.number) x l).Pairwise
        (fun a b => a.number ≤ b.number) := by
  intro l
  induction l with
  | nil => intro _; exact List.pairwise_singleton _ _
  | cons y l ih =>
    intro h
    rw [List.pairwise_cons] at h
    rw [insertBefore]
    by_cases hlt : y.number < x.number
    · rw [if_pos (by simpa using hlt)]
      rw [List.pairwise_cons]
      constructor
      · intro a ha
        rcases (mem_insertBefore _ x a l).mp ha with rfl | ha'
        · omega
        · exact h.1 a ha'
      · exact ih h.2
    · rw [if_neg (by simpa using hlt)]
      rw [List.pairwise_cons]
      constructor
      · intro a ha
        rcases List.mem_cons.mp ha with rfl | ha'
        · omega
        · have := h.1 a ha'
          omega
      · exact List.pairwise_cons.mpr h

lemma sorted_stableSortByNum :
    ∀ l : List ParsedAnswer,
      (stableSortBy (fun a b => a.number < b.number) l).Pairwise
        (fun a b => a.number ≤ b.number) := by
  intro l
  induction l with
  | nil => exact List.Pairwise.nil
  | cons x l ih =>
    rw [stableSortBy]
    exact sorted_insertByNum x _ ih

/-- C9: `parseDocumentAiAnswers` returns exactly the `{number, text}`
pairs successfully parsed from `type = "answer"` entities (a permutation
of the per-entity parse results), sorted ascending by number, and for
each number the entries appear in their original relative order (the
filter by any fixed number is unchanged by the sort, so duplicates are
kept, stably). -/
theorem parseAnswers_spec (entities : List OcrEntity) :
    (parseDocumentAiAnswers entities).Pairwise (fun a b => a.number ≤ b.number) ∧
    (parseDocumentAiAnswers entities).Perm (entities.filterMap parseEntity) ∧
    (∀ m : ℕ, ((parseDocumentAiAnswers entities).filter (fun e => e.number == m))
      = (entities.filterMap parseEntity).filter (fun e => e.number == m)) :=
  ⟨sorted_stableSortByNum _, perm_stableSortBy _ _, fun m => filter_stableSortByNum m _⟩

/-! ### Aggregator lemmas (C3) -/

lemma mem_dedupFirstAux (x : String) :
    ∀ (l seen : List String), x ∈ dedupFirstAux seen l ↔ (x ∈ l ∧ x ∉ seen) := by
  intro l
  induction l with
  | nil => intro seen; simp [dedupFirstAux]
  | cons a l ih =>
    intro seen
    rw [dedupFirstAux]
    by_cases ha : a ∈ seen
    · rw [if_pos ha, ih seen]
      simp only [List.mem_cons]
      constructor
      · rintro ⟨h1, h2⟩
        exact ⟨Or.inr h1, h2⟩
      · rintro ⟨h1, h2⟩
        rcases h1 with rfl | h1
        · exact absurd ha h2
        · exact ⟨h1, h2⟩
    · rw [if_neg ha]
      simp only [List.mem_cons, ih (a :: seen), List.mem_cons]
      constructor
      · rintro (rfl | ⟨h1, h2⟩)
        · exact ⟨Or.inl rfl, ha⟩
        · exact ⟨Or.inr h1, fun hx => h2 (Or.inr hx)⟩
      · rintro ⟨h1, h2⟩
        rcases h1 with rfl | h1
        · exact Or.inl rfl
        · by_cases hax : x = a
          · exact Or.inl hax
          · exact Or.inr ⟨h1, fun hx => by
              rcases hx with hx | hx
              · exact hax hx
              · exact h2 hx⟩

lemma nodup_dedupFirstAux : ∀ (l seen : List String), (dedupFirstAux seen l).Nodup := by
  intro l
  induction l with
  | nil => intro seen; exact List.nodup_nil
  | cons a l ih =>
    intro seen
    rw [dedupFirstAux]
    by_cases ha : a ∈ seen
    · rw [if_pos ha]
      exact ih seen
    · rw [if_neg ha]
      rw [List.nodup_cons]
      constructor
      · intro hmem
        exact ((mem_dedupFirstAux a l (a :: seen)).mp hmem).2 (List.mem_cons_self a seen)
      · exact ih (a :: seen)

lemma mem_dedupFirst (x : String) (l : List String) : x ∈ dedupFirst l ↔ x ∈ l := by
  unfold dedupFirst
  rw [mem_dedupFirstAux]
  simp

lemma nodup_dedupFirst (l : List String) : (dedupFirst l).Nodup :=
  nodup_dedupFirstAux l []

lemma length_filter_eq_of_nodup (t : String) :
    ∀ L : List String, L.Nodup →
      (L.filter (fun x => x == t)).length = if t ∈ L then 1 else 0 := by
  intro L
  induction L with
  | nil => intro _; simp
  | cons a L ih =>
    intro h
    rw [List.nodup_cons] at h
    rw [List.filter_cons]
    by_cases ha : a = t
    · subst ha
      rw [if_pos (by simp)]
      simp only [List.length_cons, ih h.2]
      rw [if_neg h.1, if_pos (List.mem_cons_self a L)]
    · rw [if_neg (by simp [ha])]
      rw [ih h.2]
      by_cases ht : t ∈ L
      · rw [if_pos ht, if_pos (List.mem_cons_of_mem a ht)]
      · rw [if_neg ht, if_neg (by
          intro hc
          rcases List.mem_cons.mp hc with rfl | hc
          · exact ha rfl
          · exact ht hc)]

lemma questionScore_notmem_zero (r : QuizRound) (q : Question) (subs : List SubmissionItem)
    (t : String) (h : ∀ s ∈ subs, s.teamName ≠ t) :
    questionScore r q subs t = 0 := by
  have hfil : ∀ p : SubmissionItem → Bool,
      subs.filter (fun s => s.teamName == t && p s) = [] := by
    intro p
    rw [List.filter_eq_nil_iff]
    intro s hs
    simp [h s hs]
  cases hrl : r.ruleset with
  | multipleChoice =>
    rw [questionScore_mc_apply r q subs t hrl]
    simp only [mcQuestionScore]
    rw [hfil (fun s => ansIsStrEq (findAnswerVal s q.number) (mcCorrectLabel q.correctAnswer))]
    simp
  | freeText =>
    have : questionScore r q subs t = ftQuestionScore r q subs t := by
      unfold questionScore
      rw [hrl]
    rw [this]
    simp only [ftQuestionScore]
    rw [hfil (fun s => isFreeTextCorrect (findAnswerVal s q.number) q.correctAnswer)]
    simp
  | number =>
    cases hc : caToNum q.correctAnswer with
    | none =>
      unfold questionScore
      rw [hrl, hc]
    | some c =>
      rw [questionScore_number_apply r q subs c t hrl hc]
      by_cases h0 : 0 < (questionExact q.number c subs).length
      · rw [numberQuestionScore_of_exact_apply r q.number c subs t h0]
        have : (questionExact q.number c subs).filter (fun s => s.teamName == t) = [] := by
          rw [List.filter_eq_nil_iff]
          intro s hs
          have hsmem : s ∈ subs := (List.mem_filter.mp hs).1
          simp [h s hsmem]
        rw [this]
        simp
      · by_cases h1 : (questionDiffs q.number c subs).length = 0
        · simp only [numberQuestionScore]
          rw [if_neg h0, if_pos h1]
        · rw [numberQuestionScore_of_closest_apply r q.number c subs t h0 h1]
          have : (questionDiffs q.number c subs).filter (fun d => d.1 == t &&
              some d.2 == (questionDiffs q.number c subs).foldl
                (fun m d => minOptQ m d.2) none) = [] := by
            rw [List.filter_eq_nil_iff]
            intro d hd
            obtain ⟨s, hs, n, _, _, rfl⟩ := (mem_questionDiffs q.number c subs d).mp hd
            simp [h s hs]
          rw [this]
          simp

lemma computeRoundScores_notmem_zero (r : QuizRound) (subs : List SubmissionItem)
    (t : String) (h : ∀ s ∈ subs, s.teamName ≠ t) :
    computeRoundScores r subs t = 0 := by
  unfold computeRoundScores
  apply List.sum_eq_zero
  intro x hx
  obtain ⟨q, _, rfl⟩ := List.mem_map.mp hx
  exact questionScore_notmem_zero r q subs t h

lemma computeQuizScores_eq (quiz : Quiz) (scope : RoundScope) (subs : List SubmissionItem) :
    computeQuizScores quiz scope subs = stableSortBy scoreEntryBefore
      ((dedupFirst (quiz.teams ++ subs.map (fun s => s.teamName))).map
        (fun t => ⟨t, ((roundsToScore quiz scope).map (fun r =>
          computeRoundScores r (subs.filter (fun s => s.roundNumber == r.roundNumber)) t)).sum⟩)) :=
  rfl

/-- C3: for every quiz, scope and submission list, the leaderboard has
exactly one entry per team of the roster-∪-submissions universe and no
other entries; any team of that universe with no scored submissions —
none of its submissions (possibly none at all) lies in a round selected
by the scope — appears with 0 points. -/
theorem scoreQuiz_membership (quiz : Quiz) (scope : RoundScope) (subs : List SubmissionItem) :
    (∀ t : String,
      ((computeQuizScores quiz scope subs).filter (fun e => e.teamName == t)).length
        = if t ∈ quiz.teams ∨ t ∈ subs.map SubmissionItem.teamName then 1 else 0) ∧
    (∀ t : String, (t ∈ quiz.teams ∨ t ∈ subs.map SubmissionItem.teamName) →
      (∀ s ∈ subs, s.teamName = t →
        ∀ r ∈ roundsToScore quiz scope, s.roundNumber ≠ r.roundNumber) →
      ScoreEntry.mk t 0 ∈ computeQuizScores quiz scope subs) := by
  constructor
  · intro t
    rw [computeQuizScores_eq]
    rw [((perm_stableSortBy scoreEntryBefore _).filter (fun e => e.teamName == t)).length_eq]
    rw [List.filter_map]
    rw [List.length_map]
    rw [List.filter_congr (by
      intro x _
      rfl :
      ∀ x ∈ dedupFirst (quiz.teams ++ subs.map (fun s => s.teamName)),
        ((fun e => e.teamName == t) ∘ (fun t' => (⟨t', ((roundsToScore quiz scope).map
          (fun r => computeRoundScores r (subs.filter
            (fun s => s.roundNumber == r.roundNumber)) t')).sum⟩ : ScoreEntry))) x
          = (fun x => x == t) x)]
    rw [length_filter_eq_of_nodup t _ (nodup_dedupFirst _)]
    have hmem : t ∈ dedupFirst (quiz.teams ++ subs.map (fun s => s.teamName)) ↔
        (t ∈ quiz.teams ∨ t ∈ subs.map SubmissionItem.teamName) := by
      rw [mem_dedupFirst]
      exact List.mem_append
    by_cases hc : t ∈ quiz.teams ∨ t ∈ subs.map SubmissionItem.teamName
    · rw [if_pos (hmem.mpr hc), if_pos hc]
    · rw [if_neg (fun hx => hc (hmem.mp hx)), if_neg hc]
  · intro t ht hnone
    rw [computeQuizScores_eq]
    apply (perm_stableSortBy scoreEntryBefore _).mem_iff.mpr
    apply List.mem_map.mpr
    refine ⟨t, (mem_dedupFirst t _).mpr ?_, ?_⟩
    · rcases ht with h | h
      · exact List.mem_append_left _ h
      · exact List.mem_append_right _ h
    · have htot : ((roundsToScore quiz scope).map (fun r =>
          computeRoundScores r (subs.filter (fun s => s.roundNumber == r.roundNumber)) t)).sum
            = 0 := by
        apply List.sum_eq_zero
        intro x hx
        obtain ⟨r, hr, rfl⟩ := List.mem_map.mp hx
        apply computeRoundScores_notmem_zero
        intro s hs hst
        have hs1 := (List.mem_filter.mp hs).1
        have hs2 := (List.mem_filter.mp hs).2
        exact absurd (by simpa using hs2) (hnone s hs1 hst r hr)
      rw [htot]

/-- C3 witness: the spec's zero-fill example — roster `["A","B","C"]`, no
submissions: each roster team appears exactly once, team `A` with 0
points — and the no-scored-submissions case: a non-roster team whose
only submission lies outside the selected round appears with 0 points. -/
theorem scoreQuiz_membership_witness :
    ((computeQuizScores ⟨"qz", none, [], ["A", "B", "C"]⟩ RoundScope.all []).filter
      (fun e => e.teamName == "A")).length = 1 ∧
    ScoreEntry.mk "A" 0 ∈ computeQuizScores ⟨"qz", none, [], ["A", "B", "C"]⟩ RoundScope.all [] ∧
    ScoreEntry.mk "D" 0 ∈ computeQuizScores
      ⟨"qz", none, [⟨1, Ruleset.number, none, some 3, some 1, [⟨1, "q", [], .ca_num 10⟩]⟩], ["A"]⟩
      (RoundScope.round 1) [⟨"qz", "D", 2, [⟨1, .jnum 10⟩]⟩] := by
  have h := scoreQuiz_membership ⟨"qz", none, [], ["A", "B", "C"]⟩ RoundScope.all []
  refine ⟨?_, ?_, ?_⟩
  · have h1 := h.1 "A"
    rw [if_pos (Or.inl (by decide))] at h1
    exact h1
  · exact h.2 "A" (Or.inl (by decide)) (by intro s hs; cases hs)
  · exact (scoreQuiz_membership
      ⟨"qz", none, [⟨1, Ruleset.number, none, some 3, some 1, [⟨1, "q", [], .ca_num 10⟩]⟩], ["A"]⟩
      (RoundScope.round 1) [⟨"qz", "D", 2, [⟨1, .jnum 10⟩]⟩]).2 "D"
      (Or.inr (by decide)) (by decide)

/-! ### Levenshtein distance: recurrence, edit scripts, DP correctness (C7) -/

/-- The textbook Levenshtein recurrence, used as the mathematical
reference point for the DP implementation. -/
def levRecur : List Char → List Char → ℕ
  | [], b => b.length
  | a, [] => a.length
  | x :: xs, y :: ys =>
    min (levRecur xs (y :: ys) + 1)
      (min (levRecur (x :: xs) ys + 1) (levRecur xs ys + levCost x y))
termination_by a b => a.length + b.length
decreasing_by
  · simp only [List.length_cons]; omega
  · simp only [List.length_cons]; omega
  · simp only [List.length_cons]; omega

lemma levRecur_nil_left (b : List Char) : levRecur [] b = b.length := by
  cases b <;> simp [levRecur]

lemma levRecur_nil_right (a : List Char) : levRecur a [] = a.length := by
  cases a <;> simp [levRecur]

lemma levRecur_cons_cons (x : Char) (xs : List Char) (y : Char) (ys : List Char) :
    levRecur (x :: xs) (y :: ys) =
      min (levRecur xs (y :: ys) + 1)
        (min (levRecur (x :: xs) ys + 1) (levRecur xs ys + levCost x y)) := by
  simp [levRecur]

/-- An edit alignment between two character lists with total cost `n`:
matched characters cost 0, substitutions, insertions and deletions cost 1
each.  `EditsTo a b n` holds exactly when `a` can be transformed into `b`
by `n` single-character operations. -/
inductive EditsTo : List Char → List Char → ℕ → Prop where
  | nil : EditsTo [] [] 0
  | keep {a b : List Char} {n : ℕ} (c : Char) : EditsTo a b n → EditsTo (c :: a) (c :: b) n
  | subst {a b : List Char} {n : ℕ} {c d : Char} :
      c ≠ d → EditsTo a b n → EditsTo (c :: a) (d :: b) (n + 1)
  | ins {a b : List Char} {n : ℕ} (d : Char) : EditsTo a b n → EditsTo a (d :: b) (n + 1)
  | del {a b : List Char} {n : ℕ} (c : Char) : EditsTo a b n → EditsTo (c :: a) b (n + 1)

lemma editsTo_nil_left : ∀ b : List Char, EditsTo [] b b.length := by
  intro b
  induction b with
  | nil => exact EditsTo.nil
  | cons y ys ih => exact EditsTo.ins y ih

lemma editsTo_nil_right : ∀ a : List Char, EditsTo a [] a.length := by
  intro a
  induction a with
  | nil => exact EditsTo.nil
  | cons x xs ih => exact EditsTo.del x ih

lemma editsTo_levRecur_bounded : ∀ (k : ℕ) (a b : List Char), a.length + b.length ≤ k →
    EditsTo a b (levRecur a b) := by
  intro k
  induction k with
  | zero =>
    intro a b h
    have ha : a = [] := List.eq_nil_of_length_eq_zero (by omega)
    have hb : b = [] := List.eq_nil_of_length_eq_zero (by omega)
    subst ha; subst hb
    rw [levRecur_nil_left]
    exact EditsTo.nil
  | succ k ih =>
    intro a b h
    cases a with
    | nil => rw [levRecur_nil_left]; exact editsTo_nil_left b
    | cons x xs =>
      cases b with
      | nil => rw [levRecur_nil_right]; exact editsTo_nil_right (x :: xs)
      | cons y ys =>
        rw [levRecur_cons_cons]
        simp only [List.length_cons] at h
        have hdel : EditsTo (x :: xs) (y :: ys) (levRecur xs (y :: ys) + 1) :=
          EditsTo.del x (ih xs (y :: ys) (by simp only [List.length_cons]; omega))
        have hins : EditsTo (x :: xs) (y :: ys) (levRecur (x :: xs) ys + 1) :=
          EditsTo.ins y (ih (x :: xs) ys (by simp only [List.length_cons]; omega))
        have hsub : EditsTo (x :: xs) (y :: ys) (levRecur xs ys + levCost x y) := by
          by_cases hxy : x = y
          · rw [show levCost x y = 0 from by simp [levCost, hxy]]
            rw [Nat.add_zero]
            exact hxy ▸ EditsTo.keep x (ih xs ys (by omega))
          · rw [show levCost x y = 1 from by simp [levCost, hxy]]
            exact EditsTo.subst hxy (ih xs ys (by omega))
        rcases Nat.le_total (levRecur xs (y :: ys) + 1)
            (min (levRecur (x :: xs) ys + 1) (levRecur xs ys + levCost x y)) with hm | hm
        · rw [min_eq_left hm]
          exact hdel
        · rw [min_eq_right hm]
          rcases Nat.le_total (levRecur (x :: xs) ys + 1) (levRecur xs ys + levCost x y)
            with hm2 | hm2
          · rw [min_eq_left hm2]
            exact hins
          · rw [min_eq_right hm2]
            exact hsub

lemma editsTo_levRecur (a b : List Char) : EditsTo a b (levRecur a b) :=
  editsTo_levRecur_bounded (a.length + b.length) a b le_rfl

lemma levRecur_le_of_editsTo {a b : List Char} {n : ℕ} (h : EditsTo a b n) :
    levRecur a b ≤ n := by
  induction h with
  | nil => rw [levRecur_nil_left]; exact Nat.le_refl 0
  | keep c h ih =>
    rw [levRecur_cons_cons]
    refine le_trans (min_le_right _ _) (le_trans (min_le_right _ _) ?_)
    simpa [levCost] using ih
  | subst hne h ih =>
    rw [levRecur_cons_cons]
    refine le_trans (min_le_right _ _) (le_trans (min_le_right _ _) ?_)
    rw [show levCost _ _ = 1 from by simp [levCost, hne]]
    omega
  | ins d h ih =>
    rename_i a' b' n'
    cases a' with
    | nil =>
      rw [levRecur_nil_left] at ih ⊢
      simp only [List.length_cons]
      omega
    | cons x xs =>
      rw [levRecur_cons_cons]
      refine le_trans (min_le_right _ _) (le_trans (min_le_left _ _) ?_)
      omega
  | del c h ih =>
    rename_i a' b' n'
    cases b' with
    | nil =>
      rw [levRecur_nil_right] at ih ⊢
      simp only [List.length_cons]
      omega
    | cons y ys =>
      rw [levRecur_cons_cons]
      refine le_trans (min_le_left _ _) ?_
      omega

lemma editsTo_symm {a b : List Char} {n : ℕ} (h : EditsTo a b n) : EditsTo b a n := by
  induction h with
  | nil => exact EditsTo.nil
  | keep c _ ih => exact EditsTo.keep c ih
  | subst hne _ ih => exact EditsTo.subst (Ne.symm hne) ih
  | ins d _ ih => exact EditsTo.del d ih
  | del c _ ih => exact EditsTo.ins c ih

lemma editsTo_append_keep {a b : List Char} {n : ℕ} (c : Char) (h : EditsTo a b n) :
    EditsTo (a ++ [c]) (b ++ [c]) n := by
  induction h with
  | nil => exact EditsTo.keep c EditsTo.nil
  | keep c' _ ih => exact EditsTo.keep c' ih
  | subst hne _ ih => exact EditsTo.subst hne ih
  | ins d _ ih => exact EditsTo.ins d ih
  | del c' _ ih => exact EditsTo.del c' ih

lemma editsTo_append_subst {a b : List Char} {n : ℕ} {c d : Char} (hne : c ≠ d)
    (h : EditsTo a b n) : EditsTo (a ++ [c]) (b ++ [d]) (n + 1) := by
  induction h with
  | nil => exact EditsTo.subst hne EditsTo.nil
  | keep c' _ ih => exact EditsTo.keep c' ih
  | subst hne' _ ih => exact EditsTo.subst hne' ih
  | ins d' _ ih => exact EditsTo.ins d' ih
  | del c' _ ih => exact EditsTo.del c' ih

lemma editsTo_append_ins {a b : List Char} {n : ℕ} (d : Char) (h : EditsTo a b n) :
    EditsTo a (b ++ [d]) (n + 1) := by
  induction h with
  | nil => exact EditsTo.ins d EditsTo.nil
  | keep c' _ ih => exact EditsTo.keep c' ih
  | subst hne' _ ih => exact EditsTo.subst hne' ih
  | ins d' _ ih => exact EditsTo.ins d' ih
  | del c' _ ih => exact EditsTo.del c' ih

lemma editsTo_append_del {a b : List Char} {n : ℕ} (c : Char) (h : EditsTo a b n) :
    EditsTo (a ++ [c]) b (n + 1) := by
  induction h with
  | nil => exact EditsTo.del c EditsTo.nil
  | keep c' _ ih => exact EditsTo.keep c' ih
  | subst hne' _ ih => exact EditsTo.subst hne' ih
  | ins d' _ ih => exact EditsTo.ins d' ih
  | del c' _ ih => exact EditsTo.del c' ih

lemma editsTo_reverse {a b : List Char} {n : ℕ} (h : EditsTo a b n) :
    EditsTo a.reverse b.reverse n := by
  induction h with
  | nil => exact EditsTo.nil
  | keep c _ ih =>
    rw [List.reverse_cons, List.reverse_cons]
    exact editsTo_append_keep c ih
  | subst hne _ ih =>
    rw [List.reverse_cons, List.reverse_cons]
    exact editsTo_append_subst hne ih
  | ins d _ ih =>
    rw [List.reverse_cons]
    exact editsTo_append_ins d ih
  | del c _ ih =>
    rw [List.reverse_cons]
    exact editsTo_append_del c ih

lemma levRecur_reverse (a b : List Char) :
    levRecur a.reverse b.reverse = levRecur a b := by
  apply le_antisymm
  · exact levRecur_le_of_editsTo (editsTo_reverse (editsTo_levRecur a b))
  · have h := levRecur_le_of_editsTo (editsTo_reverse (editsTo_levRecur a.reverse b.reverse))
    rwa [List.reverse_reverse, List.reverse_reverse] at h

lemma levRecur_symm (a b : List Char) : levRecur a b = levRecur b a :=
  le_antisymm (levRecur_le_of_editsTo (editsTo_symm (editsTo_levRecur b a)))
    (levRecur_le_of_editsTo (editsTo_symm (editsTo_levRecur a b)))

lemma levRecur_self : ∀ a : List Char, levRecur a a = 0 := by
  intro a
  induction a with
  | nil => exact levRecur_nil_left []
  | cons x xs ih =>
    rw [levRecur_cons_cons]
    rw [show levCost x x = 0 from by simp [levCost], ih]
    simp

lemma levRecur_snoc (p q : List Char) (x y : Char) :
    levRecur (p ++ [x]) (q ++ [y]) =
      min (levRecur p (q ++ [y]) + 1)
        (min (levRecur (p ++ [x]) q + 1) (levRecur p q + levCost x y)) := by
  have h1 : levRecur (p ++ [x]) (q ++ [y]) =
      levRecur (x :: p.reverse) (y :: q.reverse) := by
    rw [← levRecur_reverse]
    simp
  rw [h1, levRecur_cons_cons]
  have h2 : levRecur p.reverse (y :: q.reverse) = levRecur p (q ++ [y]) := by
    rw [← levRecur_reverse p (q ++ [y])]
    simp
  have h3 : levRecur (x :: p.reverse) q.reverse = levRecur (p ++ [x]) q := by
    rw [← levRecur_reverse (p ++ [x]) q]
    simp
  have h4 : levRecur p.reverse q.reverse = levRecur p q := levRecur_reverse p q
  rw [h2, h3, h4]

/-- The tail of the DP row for processed prefix `p`, after the first
`q`-many columns: distances from `p` to each extension of `q` by one more
character of the remaining column list. -/
def rowFrom (p : List Char) : List Char → List Char → List ℕ
  | _, [] => []
  | q, y :: ys => levRecur p (q ++ [y]) :: rowFrom p (q ++ [y]) ys

/-- The full DP row for processed prefix `p` against columns `b`. -/
def fullRow (p b : List Char) : List ℕ :=
  levRecur p [] :: rowFrom p [] b

lemma levRowAux_spec (x : Char) (p : List Char) :
    ∀ (ys q : List Char),
      levRowAux x (levRecur (p ++ [x]) q) (levRecur p q) ys (rowFrom p q ys)
        = rowFrom (p ++ [x]) q ys := by
  intro ys
  induction ys with
  | nil => intro q; rfl
  | cons y ys ih =>
    intro q
    rw [rowFrom, rowFrom, levRowAux]
    have hcell : min (levRecur p (q ++ [y]) + 1)
        (min (levRecur (p ++ [x]) q + 1) (levRecur p q + levCost x y))
          = levRecur (p ++ [x]) (q ++ [y]) := (levRecur_snoc p q x y).symm
    rw [hcell]
    exact congrArg (levRecur (p ++ [x]) (q ++ [y]) :: ·) (ih (q ++ [y]))

lemma levRowNext_spec (x : Char) (p b : List Char) :
    levRowNext x (p.length + 1) b (fullRow p b) = fullRow (p ++ [x]) b := by
  rw [fullRow, levRowNext]
  have hi : p.length + 1 = levRecur (p ++ [x]) [] := by
    rw [levRecur_nil_right, List.length_append, List.length_singleton]
  rw [hi, levRowAux_spec x p b [], fullRow]

lemma rowFrom_empty_eq_range' : ∀ (ys q : List Char),
    rowFrom [] q ys = List.range' (q.length + 1) ys.length := by
  intro ys
  induction ys with
  | nil => intro q; rfl
  | cons y ys ih =>
    intro q
    rw [rowFrom, levRecur_nil_left, List.length_append, List.length_singleton,
      List.length_cons, List.range'_succ]
    have hih := ih (q ++ [y])
    rw [List.length_append, List.length_singleton] at hih
    rw [hih]

lemma levLoop_spec (b : List Char) : ∀ (xs p : List Char),
    levLoop b xs (p.length + 1) (fullRow p b) = fullRow (p ++ xs) b := by
  intro xs
  induction xs with
  | nil =>
    intro p
    rw [levLoop, List.append_nil]
  | cons x xs ih =>
    intro p
    rw [levLoop, levRowNext_spec x p b]
    have hl : p.length + 1 + 1 = (p ++ [x]).length + 1 := by
      rw [List.length_append, List.length_singleton]
    rw [hl, ih (p ++ [x])]
    rw [List.append_assoc]
    rfl

lemma rowFrom_getD (p : List Char) :
    ∀ (ys q : List Char), ys ≠ [] →
      (rowFrom p q ys).getD (ys.length - 1) 0 = levRecur p (q ++ ys) := by
  intro ys
  induction ys with
  | nil => intro q h; exact absurd rfl h
  | cons y ys ih =>
    intro q _
    cases ys with
    | nil => rfl
    | cons y' ys' =>
      rw [rowFrom]
      have hlen : (y :: y' :: ys').length - 1 = (y' :: ys').length - 1 + 1 := by
        simp only [List.length_cons]
        omega
      rw [hlen, List.getD_cons_succ]
      rw [ih (q ++ [y]) (by simp)]
      rw [List.append_assoc]
      rfl

lemma levenshteinDistance_eq (a b : String) :
    levenshteinDistance a b = levRecur a.toList b.toList := by
  unfold levenshteinDistance
  by_cases hab : a = b
  · rw [if_pos hab, hab, levRecur_self]
  · rw [if_neg hab]
    by_cases ha : a.toList.length = 0
    · rw [if_pos ha, List.eq_nil_of_length_eq_zero ha, levRecur_nil_left]
    · rw [if_neg ha]
      by_cases hb : b.toList.length = 0
      · rw [if_pos hb, List.eq_nil_of_length_eq_zero hb, levRecur_nil_right]
      · rw [if_neg hb]
        have hinit : List.range (b.toList.length + 1) = fullRow [] b.toList := by
          rw [fullRow, List.range_eq_range', List.range'_succ,
            rowFrom_empty_eq_range' b.toList []]
          simp [levRecur_nil_left]
        rw [hinit]
        have hloop := levLoop_spec b.toList a.toList []
        simp only [List.length_nil, Nat.zero_add, List.nil_append] at hloop
        rw [hloop, fullRow]
        have hbne : b.toList ≠ [] := fun hn => hb (by rw [hn]; rfl)
        rw [show b.toList.length = (b.toList.length - 1) + 1 from by omega,
          List.getD_cons_succ, rowFrom_getD a.toList b.toList [] hbne, List.nil_append]

/-- C7: `levenshteinDistance a b` is the least cost of an edit alignment
(single-character keeps, substitutions, insertions and deletions, unit
cost each, characters compared by code point) transforming `a` into `b`;
consequently it is 0 on equal strings, symmetric, and equals `b.length`
from the empty string. -/
theorem levenshteinDistance_correct (a b : String) :
    IsLeast {n : ℕ | EditsTo a.toList b.toList n} (levenshteinDistance a b) ∧
    levenshteinDistance a a = 0 ∧
    levenshteinDistance a b = levenshteinDistance b a ∧
    levenshteinDistance "" b = b.length := by
  refine ⟨⟨?_, ?_⟩, ?_, ?_, ?_⟩
  · rw [levenshteinDistance_eq]
    exact editsTo_levRecur a.toList b.toList
  · intro n hn
    rw [levenshteinDistance_eq]
    exact levRecur_le_of_editsTo hn
  · rw [levenshteinDistance_eq, levRecur_self]
  · rw [levenshteinDistance_eq, levenshteinDistance_eq, levRecur_symm]
  · rw [levenshteinDistance_eq, show ("" : String).toList = [] from rfl, levRecur_nil_left]
    rfl

end Quizgo
